import Mathlib

/-!
# SM3 digest engine (`sm3_hash.c`): shallow embedding and verification

Machine integers are natural numbers; every place where the C arithmetic is
performed in `uint32_t` carries an explicit reduction modulo `2^32`.  Arrays
are lists; every array read and write goes through a bounds-checked helper that
returns `none` when the index is outside the array, so a result `some _` means
that the run stayed in bounds.
-/

namespace SM3

/-! ## Machine arithmetic and checked array access -/

/-- Truncation of a natural number to `uint32_t`. -/
def u32 (x : Nat) : Nat := x % 4294967296

/-- Checked array read `a[i]`. -/
def rd (a : List Nat) (i : Nat) : Option Nat := a[i]?

/-- Checked array write `a[i] = v`. -/
def wr (a : List Nat) (i : Nat) (v : Nat) : Option (List Nat) :=
  if i < a.length then some (a.set i v) else none

/-- Counted loop `for (j = lo; j < lo + n; j++) body`. -/
def forLoop {σ : Type} (body : Nat → σ → Option σ) : Nat → Nat → σ → Option σ
  | 0, _, s => some s
  | n + 1, j, s => (body j s).bind (forLoop body n (j + 1))

/-! ## Constants and macros of `sm3_hash.c` -/

def IV_A : Nat := 0x7380166f
def IV_B : Nat := 0x4914b2b9
def IV_C : Nat := 0x172442d7
def IV_D : Nat := 0xda8a0600
def IV_E : Nat := 0xa96f30bc
def IV_F : Nat := 0x163138aa
def IV_G : Nat := 0xe38dee4d
def IV_H : Nat := 0xb0fb0e4e

def T00_15 : Nat := 0x79cc4519
def T16_63 : Nat := 0x7a879d8a

def FFj_0015 (X Y Z : Nat) : Nat := (X ^^^ Y) ^^^ Z

def FFj_1663 (X Y Z : Nat) : Nat := ((X &&& Y) ||| (X &&& Z)) ||| (Y &&& Z)

def GGj_0015 (X Y Z : Nat) : Nat := (X ^^^ Y) ^^^ Z

/-- The macro `GGj_1663`; `~X` on a `uint32_t` is `X ^ 0xffffffff`. -/
def GGj_1663 (X Y Z : Nat) : Nat := (X &&& Y) ||| ((X ^^^ 0xffffffff) &&& Z)

/-- The macro `SM3_CYCLE_LEFT(n,k)`:
`((uint32_t)(n) >> (32-(k))) | ((uint32_t)(n) << (k))`. -/
def SM3_CYCLE_LEFT (n k : Nat) : Nat :=
  (u32 n >>> (32 - k)) ||| u32 (u32 n <<< k)

def SM3_P0 (x : Nat) : Nat :=
  (u32 x ^^^ SM3_CYCLE_LEFT x 9) ^^^ SM3_CYCLE_LEFT x 17

def SM3_P1 (x : Nat) : Nat :=
  (u32 x ^^^ SM3_CYCLE_LEFT x 15) ^^^ SM3_CYCLE_LEFT x 23

/-! ## The state `sm3_hash_t` -/

/-- The C struct `sm3_hash_t`. -/
structure sm3_hash_t where
  iv : List Nat
  message_length : Nat
  buf : List Nat
  cur_len : Nat
deriving DecidableEq, Repr

/-- The values a C object of type `sm3_hash_t` can hold: eight 32-bit words,
a 32-bit counter, 64 bytes and a 32-bit length. -/
def sm3_hash_t.WF (s : sm3_hash_t) : Prop :=
  s.iv.length = 8 ∧ (∀ x ∈ s.iv, x < 4294967296) ∧
  s.message_length < 4294967296 ∧
  s.buf.length = 64 ∧ (∀ x ∈ s.buf, x < 256) ∧
  s.cur_len < 4294967296

instance (s : sm3_hash_t) : Decidable s.WF := by
  unfold sm3_hash_t.WF; infer_instance

/-- A byte sequence: every element fits a `uint8_t`. -/
def isBytes (m : List Nat) : Prop := ∀ x ∈ m, x < 256

instance (m : List Nat) : Decidable (isBytes m) := by
  unfold isBytes; infer_instance

/-! ## Message expansion -/

/-- One iteration of the first loop of `msg_expand_B1_W`. -/
def msg_expand_B1_W_load (b1 : List Nat) (j : Nat) (w : List Nat) : Option (List Nat) := do
  let i := j <<< 2
  let w ← wr w j (u32 ((← rd b1 i) <<< 24))
  let w ← wr w j (u32 ((← rd w j) + u32 ((← rd b1 (i + 1)) <<< 16)))
  let w ← wr w j (u32 ((← rd w j) + u32 ((← rd b1 (i + 2)) <<< 8)))
  wr w j (u32 ((← rd w j) + u32 ((← rd b1 (i + 3)) <<< 0)))

/-- One iteration of the second loop of `msg_expand_B1_W`.  The indices `j-16`,
`j-13`, `j-9`, `j-6`, `j-3` are C `int`s: below 16 they would be negative, which
is out of bounds. -/
def msg_expand_B1_W_ext (j : Nat) (w : List Nat) : Option (List Nat) := do
  if j < 16 then none
  let a ← rd w (j - 16)
  let b ← rd w (j - 9)
  let c ← rd w (j - 3)
  let d ← rd w (j - 13)
  let e ← rd w (j - 6)
  wr w j ((SM3_P1 ((a ^^^ b) ^^^ SM3_CYCLE_LEFT c 15) ^^^ SM3_CYCLE_LEFT d 7) ^^^ e)

/-- The function `msg_expand_B1_W(b1, w)`; returns the final contents of `w`. -/
def msg_expand_B1_W (b1 : List Nat) (w : List Nat) : Option (List Nat) :=
  (forLoop (msg_expand_B1_W_load b1) 16 0 w).bind (forLoop msg_expand_B1_W_ext 52 16)

/-- The function `msg_expand_W_W1(w, w1)`; returns the final contents of `w1`. -/
def msg_expand_W_W1 (w : List Nat) (w1 : List Nat) : Option (List Nat) :=
  forLoop (fun j w1 => do wr w1 j ((← rd w j) ^^^ (← rd w (j + 4)))) 64 0 w1

/-! ## Compression function -/

/-- The local variables of `cf` that live across loop iterations. -/
structure cf_locals where
  A : Nat
  B : Nat
  C : Nat
  D : Nat
  E : Nat
  F : Nat
  G : Nat
  H : Nat
  Tjj : Nat
deriving DecidableEq, Repr

/-- The running round constant of `cf` at the start of round `j`. -/
def cf_Tjj (j : Nat) (Tjj : Nat) : Nat :=
  if j = 16 then SM3_CYCLE_LEFT T16_63 16
  else if j > 0 then SM3_CYCLE_LEFT Tjj 1
  else Tjj

/-- One iteration of the round loop of `cf`. -/
def cf_round (W W1 : List Nat) (j : Nat) (r : cf_locals) : Option cf_locals := do
  let Tjj := cf_Tjj j r.Tjj
  let SS1 := SM3_CYCLE_LEFT (u32 (u32 (SM3_CYCLE_LEFT r.A 12 + r.E) + Tjj)) 7
  let SS2 := SS1 ^^^ SM3_CYCLE_LEFT r.A 12
  let TT1 ←
    if j > 15 then do
      pure (u32 (u32 (u32 (FFj_1663 r.A r.B r.C + r.D) + SS2) + (← rd W1 j)))
    else do
      pure (u32 (u32 (u32 (FFj_0015 r.A r.B r.C + r.D) + SS2) + (← rd W1 j)))
  let TT2 ←
    if j > 15 then do
      pure (u32 (u32 (u32 (GGj_1663 r.E r.F r.G + r.H) + SS1) + (← rd W j)))
    else do
      pure (u32 (u32 (u32 (GGj_0015 r.E r.F r.G + r.H) + SS1) + (← rd W j)))
  pure { A := TT1, B := r.A, C := SM3_CYCLE_LEFT r.B 9, D := r.C,
         E := SM3_P0 TT2, F := r.E, G := SM3_CYCLE_LEFT r.F 19, H := r.G,
         Tjj := Tjj }

/-- The statement `V[i] ^= x`. -/
def cf_xor (V : List Nat) (i x : Nat) : Option (List Nat) := do
  let v ← rd V i
  wr V i (v ^^^ x)

/-- The loads `A = V[0]; ...; H = V[7]; Tjj = T00_15` at the head of `cf`. -/
def cf_load (V : List Nat) : Option cf_locals := do
  let A ← rd V 0
  let B ← rd V 1
  let C ← rd V 2
  let D ← rd V 3
  let E ← rd V 4
  let F ← rd V 5
  let G ← rd V 6
  let H ← rd V 7
  pure { A := A, B := B, C := C, D := D, E := E, F := F, G := G, H := H, Tjj := T00_15 }

/-- The stores `V[0] ^= A; ...; V[7] ^= H` at the end of `cf`. -/
def cf_store (V : List Nat) (r : cf_locals) : Option (List Nat) := do
  let V ← cf_xor V 0 r.A
  let V ← cf_xor V 1 r.B
  let V ← cf_xor V 2 r.C
  let V ← cf_xor V 3 r.D
  let V ← cf_xor V 4 r.E
  let V ← cf_xor V 5 r.F
  let V ← cf_xor V 6 r.G
  cf_xor V 7 r.H

/-- The function `cf(V, W, W1)`; returns the final contents of `V`. -/
def cf (V W W1 : List Nat) : Option (List Nat) := do
  let r0 ← cf_load V
  let r ← forLoop (cf_round W W1) 64 0 r0
  cf_store V r

/-- The function `sm3_compress`.  The local arrays `w[68]` and `w1[64]` are
uninitialised in C; they start here as zeros and every entry is written before
it is read. -/
def sm3_compress (s : sm3_hash_t) : Option sm3_hash_t := do
  let w ← msg_expand_B1_W s.buf (List.replicate 68 0)
  let w1 ← msg_expand_W_W1 w (List.replicate 64 0)
  let iv ← cf s.iv w w1
  pure { s with iv := iv }

/-! ## The three API functions -/

/-- The body of the `while (length--)` loop of `sm3_process`, for one byte. -/
def sm3_process_byte (s : sm3_hash_t) (byte : Nat) : Option sm3_hash_t := do
  let buf ← wr s.buf s.cur_len byte
  let s := { s with buf := buf, cur_len := u32 (s.cur_len + 1) }
  if s.cur_len = 64 then
    let s ← sm3_compress s
    pure { s with message_length := u32 (s.message_length + 512), cur_len := 0 }
  else
    pure s

/-- The function `sm3_process(sm3_handle, message, length)`; `message` is the
list of the `length` bytes read by the loop. -/
def sm3_process (s : sm3_hash_t) : List Nat → Option sm3_hash_t
  | [] => some s
  | byte :: rest => (sm3_process_byte s byte).bind (fun s1 => sm3_process s1 rest)

/-- The loops `while (cur_len < limit) buf[cur_len++] = 0x00` of `sm3_done`.
The first argument bounds the number of iterations; running out of it with the
loop condition still true gives `none`. -/
def sm3_done_fill (limit : Nat) : Nat → sm3_hash_t → Option sm3_hash_t
  | 0, s => if s.cur_len < limit then none else some s
  | fuel + 1, s =>
    if s.cur_len < limit then do
      let buf ← wr s.buf s.cur_len 0x00
      sm3_done_fill limit fuel { s with buf := buf, cur_len := u32 (s.cur_len + 1) }
    else some s

/-- The statement `buf[cur_len++] = v`. -/
def sm3_done_put (s : sm3_hash_t) (v : Nat) : Option sm3_hash_t := do
  let buf ← wr s.buf s.cur_len v
  pure { s with buf := buf, cur_len := u32 (s.cur_len + 1) }

/-- One iteration of the output loop of `sm3_done`. -/
def sm3_done_out (iv : List Nat) (i : Nat) (hash : List Nat) : Option (List Nat) := do
  let j := i <<< 2
  let hash ← wr hash j (((← rd iv i) >>> 24) &&& 0xff)
  let hash ← wr hash (j + 1) (((← rd iv i) >>> 16) &&& 0xff)
  let hash ← wr hash (j + 2) (((← rd iv i) >>> 8) &&& 0xff)
  wr hash (j + 3) (((← rd iv i) >>> 0) &&& 0xff)

/-- The head of `sm3_done`: the bit count of the pending bytes is added to the
counter, the marker `0x80` is stored, and when no room is left for the length
field the block is zero-filled and compressed. -/
def sm3_done_pad (s : sm3_hash_t) : Option sm3_hash_t := do
  let s := { s with message_length := u32 (s.message_length + u32 (s.cur_len * 8)) }
  let s ← sm3_done_put s 0x80
  if s.cur_len > 56 then do
    let s ← sm3_done_fill 64 64 s
    let s ← sm3_compress s
    pure { s with cur_len := 0 }
  else pure s

/-- The eight stores of the length field in `sm3_done`. -/
def sm3_done_length (s : sm3_hash_t) : Option sm3_hash_t := do
  let s ← sm3_done_put s 0x00
  let s ← sm3_done_put s 0x00
  let s ← sm3_done_put s 0x00
  let s ← sm3_done_put s 0x00
  let s ← sm3_done_put s ((s.message_length >>> 24) &&& 0xff)
  let s ← sm3_done_put s ((s.message_length >>> 16) &&& 0xff)
  let s ← sm3_done_put s ((s.message_length >>> 8) &&& 0xff)
  sm3_done_put s ((s.message_length >>> 0) &&& 0xff)

/-- The function `sm3_done(sm3_handle, hash)`: returns the state left behind
and the contents of the caller's 32-byte array `hash`, whose prior contents
are `hash0`. -/
def sm3_done_into (s : sm3_hash_t) (hash0 : List Nat) : Option (sm3_hash_t × List Nat) := do
  let s ← sm3_done_pad s
  let s ← sm3_done_fill 56 64 s
  let s ← sm3_done_length s
  let s ← sm3_compress s
  let hash ← forLoop (sm3_done_out s.iv) 8 0 hash0
  pure (s, hash)

/-- The function `sm3_done` called as in `main`, on a zeroed output array. -/
def sm3_done (s : sm3_hash_t) : Option (sm3_hash_t × List Nat) :=
  sm3_done_into s (List.replicate 32 0)

/-- The function `sm3_init`: `memset` to zero, then the eight register stores.
The argument is the prior contents of the object. -/
def sm3_init (_prior : sm3_hash_t) : sm3_hash_t :=
  let z : sm3_hash_t :=
    { iv := List.replicate 8 0, message_length := 0,
      buf := List.replicate 64 0, cur_len := 0 }
  { z with iv := (((((((z.iv.set 0 IV_A).set 1 IV_B).set 2 IV_C).set 3 IV_D).set 4 IV_E).set 5
      IV_F).set 6 IV_G).set 7 IV_H }

/-- The digest computed by `main`-style use: `sm3_init`, one `sm3_process`
call, `sm3_done`. -/
def sm3_digest (prior : sm3_hash_t) (m : List Nat) : Option (List Nat) :=
  ((sm3_process (sm3_init prior) m).bind sm3_done).map Prod.snd

/-- A sequence of `sm3_process` calls on one state, one call per chunk. -/
def sm3_process_calls (s : sm3_hash_t) : List (List Nat) → Option sm3_hash_t
  | [] => some s
  | c :: cs => (sm3_process s c).bind (fun s1 => sm3_process_calls s1 cs)

/-- The digest computed by `sm3_init`, a sequence of `sm3_process` calls,
`sm3_done`. -/
def sm3_digest_calls (prior : sm3_hash_t) (chunks : List (List Nat)) : Option (List Nat) :=
  ((sm3_process_calls (sm3_init prior) chunks).bind sm3_done).map Prod.snd

/-! ## The SM3 algorithm as the specification words it

The definitions of this section follow the text of the specification (message
expansion, compression rounds, padding, serialisation); they are compared with
the code above. -/

namespace Spec

/-- The 32-bit circular left rotation `rotl(x,k)`. -/
def rotl (x k : Nat) : Nat := ((x <<< k) ||| (x >>> (32 - k))) % 2 ^ 32

def P0 (x : Nat) : Nat := x ^^^ rotl x 9 ^^^ rotl x 17

def P1 (x : Nat) : Nat := x ^^^ rotl x 15 ^^^ rotl x 23

/-- The base round constant of round `j`. -/
def T (j : Nat) : Nat := if j ≤ 15 then 0x79cc4519 else 0x7a879d8a

/-- The bitwise complement of a 32-bit word. -/
def not32 (x : Nat) : Nat := 0xffffffff ^^^ x

def FF (j x y z : Nat) : Nat :=
  if j ≤ 15 then x ^^^ y ^^^ z else (x &&& y) ||| (x &&& z) ||| (y &&& z)

def GG (j x y z : Nat) : Nat :=
  if j ≤ 15 then x ^^^ y ^^^ z else (x &&& y) ||| (not32 x &&& z)

/-- The big-endian 32-bit word number `j` of a block. -/
def wordBE (b : List Nat) (j : Nat) : Nat :=
  b.getD (4 * j) 0 * 2 ^ 24 + b.getD (4 * j + 1) 0 * 2 ^ 16 + b.getD (4 * j + 2) 0 * 2 ^ 8
    + b.getD (4 * j + 3) 0

/-- The word `W[j]` of the recurrence, from the list `W` of the `j` words before it. -/
def Wnext (W : List Nat) : Nat :=
  let j := W.length
  P1 (W.getD (j - 16) 0 ^^^ W.getD (j - 9) 0 ^^^ rotl (W.getD (j - 3) 0) 15)
    ^^^ rotl (W.getD (j - 13) 0) 7 ^^^ W.getD (j - 6) 0

/-- The words `W[0 .. 16+n)` of a block. -/
def Wupto (b : List Nat) : Nat → List Nat
  | 0 => (List.range 16).map (wordBE b)
  | n + 1 => Wupto b n ++ [Wnext (Wupto b n)]

/-- The schedule `W[0..67]` of a block. -/
def W (b : List Nat) : List Nat := Wupto b 52

/-- The schedule `W'[0..63]`, `W'[j] = W[j] XOR W[j+4]`. -/
def W' (w : List Nat) : List Nat :=
  (List.range 64).map (fun j => w.getD j 0 ^^^ w.getD (j + 4) 0)

/-- The eight working registers of the compression rounds. -/
structure Regs where
  A : Nat
  B : Nat
  C : Nat
  D : Nat
  E : Nat
  F : Nat
  G : Nat
  H : Nat
deriving DecidableEq, Repr

/-- Round `j` of the compression function. -/
def round (w w' : List Nat) (j : Nat) (r : Regs) : Regs :=
  let Tj := rotl (T j) (j % 32)
  let SS1 := rotl ((rotl r.A 12 + r.E + Tj) % 2 ^ 32) 7
  let SS2 := SS1 ^^^ rotl r.A 12
  let TT1 := (FF j r.A r.B r.C + r.D + SS2 + w'.getD j 0) % 2 ^ 32
  let TT2 := (GG j r.E r.F r.G + r.H + SS1 + w.getD j 0) % 2 ^ 32
  { A := TT1, B := r.A, C := rotl r.B 9, D := r.C,
    E := P0 TT2, F := r.E, G := rotl r.F 19, H := r.G }

/-- The registers after rounds `0 .. n-1`. -/
def rounds (w w' : List Nat) : Nat → Regs → Regs
  | 0, r => r
  | n + 1, r => round w w' n (rounds w w' n r)

/-- The compression function: 64 rounds over the schedules of block `b`, then
the XOR feedback into the chaining value `V`. -/
def CF (V : List Nat) (b : List Nat) : List Nat :=
  let w := W b
  let r := rounds w (W' w) 64
    { A := V.getD 0 0, B := V.getD 1 0, C := V.getD 2 0, D := V.getD 3 0,
      E := V.getD 4 0, F := V.getD 5 0, G := V.getD 6 0, H := V.getD 7 0 }
  [V.getD 0 0 ^^^ r.A, V.getD 1 0 ^^^ r.B, V.getD 2 0 ^^^ r.C, V.getD 3 0 ^^^ r.D,
   V.getD 4 0 ^^^ r.E, V.getD 5 0 ^^^ r.F, V.getD 6 0 ^^^ r.G, V.getD 7 0 ^^^ r.H]

/-- The standard initialisation vector. -/
def IV : List Nat :=
  [0x7380166f, 0x4914b2b9, 0x172442d7, 0xda8a0600, 0xa96f30bc, 0x163138aa, 0xe38dee4d,
   0xb0fb0e4e]

/-- The big-endian encoding of a 32-bit word, most significant byte first. -/
def be32 (x : Nat) : List Nat :=
  [x / 2 ^ 24 % 256, x / 2 ^ 16 % 256, x / 2 ^ 8 % 256, x % 256]

/-- The big-endian encoding of a 64-bit word. -/
def be64 (x : Nat) : List Nat := be32 (x / 2 ^ 32 % 2 ^ 32) ++ be32 (x % 2 ^ 32)

/-- The 32-bit words a byte string encodes big-endian, four bytes a word. -/
def wordsOfBytes : List Nat → List Nat
  | a :: b :: c :: d :: rest => (a * 2 ^ 24 + b * 2 ^ 16 + c * 2 ^ 8 + d) :: wordsOfBytes rest
  | _ => []

/-- The serialisation of the registers: each as four big-endian bytes, in order. -/
def serialize (V : List Nat) : List Nat := (V.map be32).flatten

/-- The number `k` of zero bytes of the padding of an `n`-byte message: the
least `k` with `n + 1 + k ≡ 56 (mod 64)`. -/
def padK (n : Nat) : Nat :=
  ((List.range 64).find? (fun k => (n + 1 + k) % 64 = 56)).getD 0

/-- The padded message. -/
def pad (m : List Nat) : List Nat :=
  m ++ [0x80] ++ List.replicate (padK m.length) 0 ++ be64 (8 * m.length)

/-- The first `q` 64-byte blocks of a byte string. -/
def blocks : Nat → List Nat → List (List Nat)
  | 0, _ => []
  | q + 1, l => l.take 64 :: blocks q (l.drop 64)

/-- The SM3 digest of a message: the compression function folded from the
initialisation vector over the blocks of the padded message, serialised. -/
def hash (m : List Nat) : List Nat :=
  serialize ((blocks ((pad m).length / 64) (pad m)).foldl CF IV)

end Spec

/-! ## Auxiliary definitions for the proofs -/

/-- The eight working registers held in the locals of `cf`. -/
def cf_locals.regs (r : cf_locals) : Spec.Regs :=
  { A := r.A, B := r.B, C := r.C, D := r.D, E := r.E, F := r.F, G := r.G, H := r.H }

/-- The value of the local `Tjj` of `cf` after `j` iterations of the round loop. -/
def cf_TjjAt : Nat → Nat
  | 0 => T00_15
  | j + 1 => cf_Tjj j (cf_TjjAt j)

/-- All eight registers are 32-bit words. -/
def Spec.Regs.Bounded (r : Spec.Regs) : Prop :=
  r.A < 4294967296 ∧ r.B < 4294967296 ∧ r.C < 4294967296 ∧ r.D < 4294967296 ∧
  r.E < 4294967296 ∧ r.F < 4294967296 ∧ r.G < 4294967296 ∧ r.H < 4294967296

/-- The registers of a chaining value. -/
def Spec.regsOf (V : List Nat) : Spec.Regs :=
  { A := V.getD 0 0, B := V.getD 1 0, C := V.getD 2 0, D := V.getD 3 0,
    E := V.getD 4 0, F := V.getD 5 0, G := V.getD 6 0, H := V.getD 7 0 }

/-- The abstract content of a state: the registers `iv`, the bit counter `ml`
and the pending bytes `P`, which are the first `cur_len` bytes of the buffer. -/
structure Holds (s : sm3_hash_t) (iv : List Nat) (ml : Nat) (P : List Nat) : Prop where
  wf : s.WF
  iv_eq : s.iv = iv
  ml_eq : s.message_length = ml
  len_eq : s.cur_len = P.length
  pend_eq : s.buf.take P.length = P

/-- The blocks compressed by `sm3_done` when the pending bytes are `P` and the
counter, after the pending bits are added, is `L`. -/
def doneBlocks (P : List Nat) (L : Nat) : List (List Nat) :=
  if P.length ≤ 55 then
    [P ++ [0x80] ++ List.replicate (55 - P.length) 0 ++ ([0, 0, 0, 0] ++ Spec.be32 L)]
  else
    [P ++ [0x80] ++ List.replicate (63 - P.length) 0,
     List.replicate 56 0 ++ ([0, 0, 0, 0] ++ Spec.be32 L)]

/-! ## Instrumented variants of the code

The same code with two kinds of bookkeeping added: the shifts that C leaves
undefined fail in the `_checked` variants, and the `_log` variants record each
block that `sm3_compress` is run on. -/

/-- The macro `SM3_CYCLE_LEFT(n,k)` where a shift of a 32-bit word by 32 or
more, undefined in C, fails: the two shift amounts `32-k` and `k` are both below
32 exactly when `0 < k < 32`. -/
def SM3_CYCLE_LEFT_checked (n k : Nat) : Option Nat :=
  if 0 < k ∧ k < 32 then some (SM3_CYCLE_LEFT n k) else none

/-- The macro `SM3_P0` over the checked rotation. -/
def SM3_P0_checked (x : Nat) : Option Nat := do
  let a ← SM3_CYCLE_LEFT_checked x 9
  let b ← SM3_CYCLE_LEFT_checked x 17
  pure ((u32 x ^^^ a) ^^^ b)

/-- The macro `SM3_P1` over the checked rotation. -/
def SM3_P1_checked (x : Nat) : Option Nat := do
  let a ← SM3_CYCLE_LEFT_checked x 15
  let b ← SM3_CYCLE_LEFT_checked x 23
  pure ((u32 x ^^^ a) ^^^ b)

/-- One iteration of the second loop of `msg_expand_B1_W` over the checked
rotation. -/
def msg_expand_B1_W_ext_checked (j : Nat) (w : List Nat) : Option (List Nat) := do
  if j < 16 then none
  let a ← rd w (j - 16)
  let b ← rd w (j - 9)
  let c ← rd w (j - 3)
  let d ← rd w (j - 13)
  let e ← rd w (j - 6)
  let c15 ← SM3_CYCLE_LEFT_checked c 15
  let p ← SM3_P1_checked ((a ^^^ b) ^^^ c15)
  let d7 ← SM3_CYCLE_LEFT_checked d 7
  wr w j ((p ^^^ d7) ^^^ e)

/-- The update of the running round constant of `cf` over the checked rotation. -/
def cf_Tjj_checked (j : Nat) (Tjj : Nat) : Option Nat :=
  if j = 16 then SM3_CYCLE_LEFT_checked T16_63 16
  else if j > 0 then SM3_CYCLE_LEFT_checked Tjj 1
  else some Tjj

/-- One iteration of the round loop of `cf` over the checked rotation. -/
def cf_round_checked (W W1 : List Nat) (j : Nat) (r : cf_locals) : Option cf_locals := do
  let Tjj ← cf_Tjj_checked j r.Tjj
  let a12 ← SM3_CYCLE_LEFT_checked r.A 12
  let SS1 ← SM3_CYCLE_LEFT_checked (u32 (u32 (a12 + r.E) + Tjj)) 7
  let a12' ← SM3_CYCLE_LEFT_checked r.A 12
  let SS2 := SS1 ^^^ a12'
  let TT1 ←
    if j > 15 then do
      pure (u32 (u32 (u32 (FFj_1663 r.A r.B r.C + r.D) + SS2) + (← rd W1 j)))
    else do
      pure (u32 (u32 (u32 (FFj_0015 r.A r.B r.C + r.D) + SS2) + (← rd W1 j)))
  let TT2 ←
    if j > 15 then do
      pure (u32 (u32 (u32 (GGj_1663 r.E r.F r.G + r.H) + SS1) + (← rd W j)))
    else do
      pure (u32 (u32 (u32 (GGj_0015 r.E r.F r.G + r.H) + SS1) + (← rd W j)))
  let b9 ← SM3_CYCLE_LEFT_checked r.B 9
  let f19 ← SM3_CYCLE_LEFT_checked r.F 19
  let e ← SM3_P0_checked TT2
  pure { A := TT1, B := r.A, C := b9, D := r.C,
         E := e, F := r.E, G := f19, H := r.G, Tjj := Tjj }

/-- The function `sm3_compress`, recording the block it compresses at the end of
a log. -/
def sm3_compress_log (s : sm3_hash_t) (log : List (List Nat)) :
    Option (sm3_hash_t × List (List Nat)) :=
  (sm3_compress s).map (fun s' => (s', log ++ [s.buf]))

/-- The body of the loop of `sm3_process`, with the log of compressed blocks. -/
def sm3_process_byte_log (s : sm3_hash_t) (log : List (List Nat)) (byte : Nat) :
    Option (sm3_hash_t × List (List Nat)) := do
  let buf ← wr s.buf s.cur_len byte
  let s := { s with buf := buf, cur_len := u32 (s.cur_len + 1) }
  if s.cur_len = 64 then
    let r ← sm3_compress_log s log
    pure ({ r.1 with message_length := u32 (r.1.message_length + 512), cur_len := 0 }, r.2)
  else
    pure (s, log)

/-- The function `sm3_process`, with the log of compressed blocks. -/
def sm3_process_log (s : sm3_hash_t) (log : List (List Nat)) :
    List Nat → Option (sm3_hash_t × List (List Nat))
  | [] => some (s, log)
  | byte :: rest =>
    (sm3_process_byte_log s log byte).bind (fun r => sm3_process_log r.1 r.2 rest)

/-- A sequence of `sm3_process` calls, with the log of compressed blocks. -/
def sm3_process_calls_log (s : sm3_hash_t) (log : List (List Nat)) :
    List (List Nat) → Option (sm3_hash_t × List (List Nat))
  | [] => some (s, log)
  | c :: cs => (sm3_process_log s log c).bind (fun r => sm3_process_calls_log r.1 r.2 cs)

/-- The head of `sm3_done`, with the log of compressed blocks. -/
def sm3_done_pad_log (s : sm3_hash_t) (log : List (List Nat)) :
    Option (sm3_hash_t × List (List Nat)) := do
  let s := { s with message_length := u32 (s.message_length + u32 (s.cur_len * 8)) }
  let s ← sm3_done_put s 0x80
  if s.cur_len > 56 then do
    let s ← sm3_done_fill 64 64 s
    let r ← sm3_compress_log s log
    pure ({ r.1 with cur_len := 0 }, r.2)
  else pure (s, log)

/-- The function `sm3_done`, with the log of compressed blocks. -/
def sm3_done_log (s : sm3_hash_t) (log : List (List Nat)) (hash0 : List Nat) :
    Option (sm3_hash_t × List Nat × List (List Nat)) := do
  let r ← sm3_done_pad_log s log
  let s ← sm3_done_fill 56 64 r.1
  let s ← sm3_done_length s
  let r ← sm3_compress_log s r.2
  let hash ← forLoop (sm3_done_out r.1.iv) 8 0 hash0
  pure (r.1, hash, r.2)

/-- A state object with stale contents, as `sm3_init` may find it. -/
def stale : sm3_hash_t :=
  { iv := List.replicate 8 0xdeadbeef, message_length := 7,
    buf := List.replicate 64 0xaa, cur_len := 3 }

/-- The array `test_data` of `main`. -/
def test_data : List Nat := [0x01, 0x02, 0x03, 0x04, 0x05, 0x06]

/-! ## Word-level lemmas -/

theorem u32_lt (x : Nat) : u32 x < 4294967296 := Nat.mod_lt _ (by decide)

theorem u32_of_lt {x : Nat} (h : x < 4294967296) : u32 x = x := Nat.mod_eq_of_lt h

theorem testBit_of_lt32 {x i : Nat} (hx : x < 4294967296) (hi : 32 ≤ i) : x.testBit i = false := by
  apply Nat.testBit_lt_two_pow
  calc x < 2 ^ 32 := hx
    _ ≤ 2 ^ i := Nat.pow_le_pow_right (by decide) hi

theorem SM3_CYCLE_LEFT_eq {x : Nat} (hx : x < 4294967296) (k : Nat) :
    SM3_CYCLE_LEFT x k = Spec.rotl x k := by
  unfold SM3_CYCLE_LEFT Spec.rotl
  rw [u32_of_lt hx]
  show (x >>> (32 - k)) ||| (x <<< k) % 2 ^ 32 = ((x <<< k) ||| (x >>> (32 - k))) % 2 ^ 32
  apply Nat.eq_of_testBit_eq
  intro i
  simp only [Nat.testBit_or, Nat.testBit_mod_two_pow, Nat.testBit_shiftRight]
  by_cases hi : i < 32
  · simp [hi, Bool.or_comm]
  · have : x.testBit (32 - k + i) = false := testBit_of_lt32 hx (by omega)
    simp [hi, this]

theorem rotl_lt (x k : Nat) : Spec.rotl x k < 4294967296 := Nat.mod_lt _ (by decide)

theorem SM3_CYCLE_LEFT_lt (x k : Nat) (hx : x < 4294967296) : SM3_CYCLE_LEFT x k < 4294967296 := by
  rw [SM3_CYCLE_LEFT_eq hx]; exact rotl_lt x k

theorem xor_lt32 {x y : Nat} (hx : x < 4294967296) (hy : y < 4294967296) :
    x ^^^ y < 4294967296 :=
  @Nat.xor_lt_two_pow x y 32 hx hy

theorem SM3_P0_eq {x : Nat} (hx : x < 4294967296) : SM3_P0 x = Spec.P0 x := by
  unfold SM3_P0 Spec.P0
  rw [u32_of_lt hx, SM3_CYCLE_LEFT_eq hx, SM3_CYCLE_LEFT_eq hx]

theorem SM3_P1_eq {x : Nat} (hx : x < 4294967296) : SM3_P1 x = Spec.P1 x := by
  unfold SM3_P1 Spec.P1
  rw [u32_of_lt hx, SM3_CYCLE_LEFT_eq hx, SM3_CYCLE_LEFT_eq hx]

theorem P0_lt {x : Nat} (hx : x < 4294967296) : Spec.P0 x < 4294967296 :=
  xor_lt32 (xor_lt32 hx (rotl_lt _ _)) (rotl_lt _ _)

theorem P1_lt {x : Nat} (hx : x < 4294967296) : Spec.P1 x < 4294967296 :=
  xor_lt32 (xor_lt32 hx (rotl_lt _ _)) (rotl_lt _ _)

theorem FF_eq (j x y z : Nat) :
    (if j > 15 then FFj_1663 x y z else FFj_0015 x y z) = Spec.FF j x y z := by
  unfold Spec.FF FFj_1663 FFj_0015
  by_cases h : j ≤ 15
  · simp [h, Nat.not_lt.mpr h]
  · simp [h, Nat.lt_of_not_le h]

theorem GG_eq (j x y z : Nat) :
    (if j > 15 then GGj_1663 x y z else GGj_0015 x y z) = Spec.GG j x y z := by
  unfold Spec.GG GGj_1663 GGj_0015 Spec.not32
  by_cases h : j ≤ 15
  · simp [h, Nat.not_lt.mpr h]
  · simp [h, Nat.lt_of_not_le h, Nat.xor_comm]

/-! ## Checked access and loops -/

theorem rd_of_lt {a : List Nat} {i : Nat} (h : i < a.length) : rd a i = some (a.getD i 0) := by
  simp [rd, List.getD, List.getElem?_eq_getElem h]

theorem wr_of_lt {a : List Nat} {i : Nat} (h : i < a.length) (v : Nat) :
    wr a i v = some (a.set i v) := by
  simp [wr, h]

theorem forLoop_inv {σ : Type} (body : Nat → σ → Option σ) (P : Nat → σ → Prop) :
    ∀ (n lo : Nat) (s : σ), P lo s →
    (∀ j s, lo ≤ j → j < lo + n → P j s → ∃ s', body j s = some s' ∧ P (j + 1) s') →
    ∃ s', forLoop body n lo s = some s' ∧ P (lo + n) s' := by
  intro n
  induction n with
  | zero => intro lo s h0 _; exact ⟨s, rfl, h0⟩
  | succ n ih =>
    intro lo s h0 hstep
    obtain ⟨s1, hb, h1⟩ := hstep lo s (Nat.le_refl _) (by omega) h0
    obtain ⟨s2, hl, h2⟩ := ih (lo + 1) s1 h1 (fun j t hj hj' hP => hstep j t (by omega) (by omega) hP)
    refine ⟨s2, ?_, ?_⟩
    · simp [forLoop, hb, hl]
    · have : lo + (n + 1) = lo + 1 + n := by omega
      rw [this]; exact h2

/-! ## List lemmas for array prefixes -/

theorem take_set_succ (l : List Nat) (j v : Nat) (h : j < l.length) :
    (l.set j v).take (j + 1) = l.take j ++ [v] := by
  induction l generalizing j with
  | nil => simp at h
  | cons a l ih =>
    cases j with
    | zero => simp
    | succ j => simp at h; simp [ih j h]

theorem getD_take_of_lt (l : List Nat) {i j : Nat} (h : i < j) :
    (l.take j).getD i 0 = l.getD i 0 := by
  simp [List.getD, List.getElem?_take, h]

theorem eq_of_take_length {l r : List Nat} {n : Nat} (hl : l.length = n) (h : l.take n = r) :
    l = r := by
  rw [← h, ← hl, List.take_length]

theorem getD_lt_of_forall {l : List Nat} {B : Nat} (h : ∀ x ∈ l, x < B) (hB : 0 < B) (i : Nat) :
    l.getD i 0 < B := by
  by_cases hi : i < l.length
  · rw [List.getD_eq_getElem _ _ hi]; exact h _ (List.getElem_mem _)
  · rw [List.getD_eq_default _ _ (by omega)]; exact hB

/-! ## Message expansion: the code computes the schedules of the specification -/

theorem be_word_lt {a b c d : Nat} (ha : a < 256) (hb : b < 256) (hc : c < 256) (hd : d < 256) :
    a * 2 ^ 24 + b * 2 ^ 16 + c * 2 ^ 8 + d < 4294967296 := by
  simp only [Nat.reducePow]
  omega

theorem be_word_eq {a b c d : Nat} (ha : a < 256) (hb : b < 256) (hc : c < 256) (hd : d < 256) :
    u32 (u32 (u32 (u32 (a <<< 24) + u32 (b <<< 16)) + u32 (c <<< 8)) + u32 (d <<< 0)) =
      a * 2 ^ 24 + b * 2 ^ 16 + c * 2 ^ 8 + d := by
  unfold u32
  simp only [Nat.shiftLeft_eq, Nat.reducePow]
  omega

theorem wordBE_lt {b : List Nat} (hb : isBytes b) (j : Nat) : Spec.wordBE b j < 4294967296 := by
  have h0 := getD_lt_of_forall hb (by decide) (4 * j)
  have h1 := getD_lt_of_forall hb (by decide) (4 * j + 1)
  have h2 := getD_lt_of_forall hb (by decide) (4 * j + 2)
  have h3 := getD_lt_of_forall hb (by decide) (4 * j + 3)
  exact be_word_lt h0 h1 h2 h3

theorem Wupto_length (b : List Nat) (n : Nat) : (Spec.Wupto b n).length = 16 + n := by
  induction n with
  | zero => simp [Spec.Wupto]
  | succ n ih => simp [Spec.Wupto, ih]; omega

theorem Wnext_lt {W : List Nat} (h : ∀ x ∈ W, x < 4294967296) : Spec.Wnext W < 4294967296 := by
  have g := fun i => getD_lt_of_forall h (by decide) i
  unfold Spec.Wnext
  exact xor_lt32 (xor_lt32 (P1_lt (xor_lt32 (xor_lt32 (g _) (g _)) (rotl_lt _ _))) (rotl_lt _ _))
    (g _)

theorem Wupto_lt {b : List Nat} (hb : isBytes b) (n : Nat) :
    ∀ x ∈ Spec.Wupto b n, x < 4294967296 := by
  induction n with
  | zero =>
    intro x hx
    simp only [Spec.Wupto, List.mem_map] at hx
    obtain ⟨j, _, rfl⟩ := hx
    exact wordBE_lt hb j
  | succ n ih =>
    intro x hx
    simp only [Spec.Wupto, List.mem_append, List.mem_singleton] at hx
    rcases hx with hx | rfl
    · exact ih x hx
    · exact Wnext_lt ih

theorem W_length (b : List Nat) : (Spec.W b).length = 68 := Wupto_length b 52

theorem W_lt {b : List Nat} (hb : isBytes b) : ∀ x ∈ Spec.W b, x < 4294967296 := Wupto_lt hb 52

theorem msg_expand_B1_W_load_eq {b1 w : List Nat} {j : Nat} (hb : b1.length = 64)
    (hbytes : isBytes b1) (hw : w.length = 68) (hj : j < 16) :
    msg_expand_B1_W_load b1 j w = some (w.set j (Spec.wordBE b1 j)) := by
  have h0 := getD_lt_of_forall hbytes (by decide) (4 * j)
  have h1 := getD_lt_of_forall hbytes (by decide) (4 * j + 1)
  have h2 := getD_lt_of_forall hbytes (by decide) (4 * j + 2)
  have h3 := getD_lt_of_forall hbytes (by decide) (4 * j + 3)
  have e : j <<< 2 = 4 * j := by rw [Nat.shiftLeft_eq]; omega
  have r0 : rd b1 (4 * j) = some (b1.getD (4 * j) 0) := rd_of_lt (by omega)
  have r1 : rd b1 (4 * j + 1) = some (b1.getD (4 * j + 1) 0) := rd_of_lt (by omega)
  have r2 : rd b1 (4 * j + 2) = some (b1.getD (4 * j + 2) 0) := rd_of_lt (by omega)
  have r3 : rd b1 (4 * j + 3) = some (b1.getD (4 * j + 3) 0) := rd_of_lt (by omega)
  have hjw : j < w.length := by omega
  have rw_ : ∀ v : Nat, rd (w.set j v) j = some v := by
    intro v; simp [rd, hjw]
  have ww : ∀ (v v' : Nat), wr (w.set j v) j v' = some (w.set j v') := by
    intro v v'; simp [wr, hjw]
  simp only [msg_expand_B1_W_load, e, r0, r1, r2, r3, wr_of_lt hjw, rw_, ww, Option.bind_eq_bind,
    Option.some_bind, Option.pure_def, bind_pure_comp, Option.map_eq_map, Option.map_some']
  congr 2
  exact be_word_eq h0 h1 h2 h3

theorem msg_expand_B1_W_ext_eq {b1 w : List Nat} {j : Nat} (hbytes : isBytes b1)
    (hw : w.length = 68) (hj : 16 ≤ j) (hj' : j < 68)
    (hpre : w.take j = Spec.Wupto b1 (j - 16)) :
    msg_expand_B1_W_ext j w = some (w.set j (Spec.Wnext (Spec.Wupto b1 (j - 16)))) := by
  have hlt := Wupto_lt hbytes (j - 16)
  have g := fun i => getD_lt_of_forall hlt (by decide) i
  have hlen : (Spec.Wupto b1 (j - 16)).length = j := by rw [Wupto_length]; omega
  have rdw : ∀ i, i < j → rd w i = some ((Spec.Wupto b1 (j - 16)).getD i 0) := by
    intro i hi
    rw [rd_of_lt (by omega), ← hpre, getD_take_of_lt w hi]
  have hnot : ¬ j < 16 := by omega
  simp only [msg_expand_B1_W_ext, hnot, rdw (j - 16) (by omega), rdw (j - 9) (by omega),
    rdw (j - 3) (by omega), rdw (j - 13) (by omega), rdw (j - 6) (by omega),
    wr_of_lt (show j < w.length by omega), Option.bind_eq_bind, Option.some_bind, if_false,
    Option.pure_def]
  simp only [Spec.Wnext, hlen]
  rw [SM3_CYCLE_LEFT_eq (g _), SM3_CYCLE_LEFT_eq (g _),
    SM3_P1_eq (xor_lt32 (xor_lt32 (g _) (g _)) (rotl_lt _ _))]

theorem msg_expand_B1_W_eq {b1 w : List Nat} (hb : b1.length = 64) (hbytes : isBytes b1)
    (hw : w.length = 68) : msg_expand_B1_W b1 w = some (Spec.W b1) := by
  obtain ⟨w1, h1, hl1, hp1⟩ := forLoop_inv (msg_expand_B1_W_load b1)
    (fun j w => w.length = 68 ∧ w.take j = (List.range j).map (Spec.wordBE b1)) 16 0 w
    ⟨hw, by simp⟩
    (by
      intro j w _ hj hP
      refine ⟨_, msg_expand_B1_W_load_eq hb hbytes hP.1 (by omega), by simp [hP.1], ?_⟩
      rw [take_set_succ _ _ _ (by omega), hP.2, List.range_succ, List.map_append]
      rfl)
  obtain ⟨w2, h2, hl2, hp2⟩ := forLoop_inv msg_expand_B1_W_ext
    (fun j w => w.length = 68 ∧ w.take j = Spec.Wupto b1 (j - 16)) 52 16 w1
    ⟨hl1, hp1⟩
    (by
      intro j w hj hj' hP
      refine ⟨_, msg_expand_B1_W_ext_eq hbytes hP.1 hj (by omega) hP.2, by simp [hP.1], ?_⟩
      rw [take_set_succ _ _ _ (by omega), hP.2]
      have : j + 1 - 16 = (j - 16) + 1 := by omega
      rw [this]
      rfl)
  unfold msg_expand_B1_W
  rw [h1, Option.some_bind, h2, eq_of_take_length hl2 hp2]
  rfl

theorem W'_length (w : List Nat) : (Spec.W' w).length = 64 := by simp [Spec.W']

theorem W'_lt {w : List Nat} (h : ∀ x ∈ w, x < 4294967296) : ∀ x ∈ Spec.W' w, x < 4294967296 := by
  intro x hx
  simp only [Spec.W', List.mem_map] at hx
  obtain ⟨j, _, rfl⟩ := hx
  exact xor_lt32 (getD_lt_of_forall h (by decide) _) (getD_lt_of_forall h (by decide) _)

theorem msg_expand_W_W1_eq {w w1 : List Nat} (hw : w.length = 68) (hw1 : w1.length = 64) :
    msg_expand_W_W1 w w1 = some (Spec.W' w) := by
  obtain ⟨r, h1, hl1, hp1⟩ := forLoop_inv
    (fun j w1 => do wr w1 j ((← rd w j) ^^^ (← rd w (j + 4))))
    (fun j w1 => w1.length = 64 ∧
      w1.take j = (List.range j).map (fun j => w.getD j 0 ^^^ w.getD (j + 4) 0)) 64 0 w1
    ⟨hw1, by simp⟩
    (by
      intro j w1 _ hj hP
      refine ⟨w1.set j (w.getD j 0 ^^^ w.getD (j + 4) 0), ?_, by simp [hP.1], ?_⟩
      · simp [rd_of_lt (show j < w.length by omega), rd_of_lt (show j + 4 < w.length by omega),
          wr_of_lt (show j < w1.length by omega)]
      · rw [take_set_succ _ _ _ (by omega), hP.2, List.range_succ, List.map_append]
        rfl)
  unfold msg_expand_W_W1
  rw [h1, eq_of_take_length hl1 hp1]
  rfl

/-! ## Compression: the code computes the rounds of the specification -/

theorem u32_add2 (a b c : Nat) : u32 (u32 (a + b) + c) = (a + b + c) % 2 ^ 32 := by
  unfold u32
  simp only [Nat.reducePow]
  omega

theorem u32_mod_add (a d : Nat) : u32 (a % 2 ^ 32 + d) = (a + d) % 2 ^ 32 := by
  unfold u32
  simp only [Nat.reducePow]
  omega

theorem cf_Tjj_eq : ∀ j < 64, cf_Tjj j (cf_TjjAt j) = Spec.rotl (Spec.T j) (j % 32) := by
  decide

theorem round_bounded (w w' : List Nat) (j : Nat) {r : Spec.Regs} (h : r.Bounded) :
    (Spec.round w w' j r).Bounded := by
  obtain ⟨hA, hB, hC, hD, hE, hF, hG, hH⟩ := h
  refine ⟨Nat.mod_lt _ (by decide), hA, rotl_lt _ _, hC, P0_lt (Nat.mod_lt _ (by decide)), hE,
    rotl_lt _ _, hG⟩

theorem rounds_bounded (w w' : List Nat) (n : Nat) {r : Spec.Regs} (h : r.Bounded) :
    (Spec.rounds w w' n r).Bounded := by
  induction n with
  | zero => exact h
  | succ n ih => exact round_bounded w w' n ih

theorem cf_round_eq {W W1 : List Nat} {j : Nat} {r : cf_locals} (hW : W.length = 68)
    (hW1 : W1.length = 64) (hj : j < 64) (hb : r.regs.Bounded) (hT : r.Tjj = cf_TjjAt j) :
    ∃ r', cf_round W W1 j r = some r' ∧ r'.regs = Spec.round W W1 j r.regs ∧
      r'.Tjj = cf_TjjAt (j + 1) := by
  obtain ⟨hA, hB, hC, hD, hE, hF, hG, hH⟩ := hb
  simp only [cf_locals.regs] at hA hB hC hD hE hF hG hH
  have rW : rd W j = some (W.getD j 0) := rd_of_lt (by omega)
  have rW1 : rd W1 j = some (W1.getD j 0) := rd_of_lt (by omega)
  have hTj : cf_Tjj j r.Tjj = Spec.rotl (Spec.T j) (j % 32) := by rw [hT]; exact cf_Tjj_eq j hj
  have hff := FF_eq j r.A r.B r.C
  have hgg := GG_eq j r.E r.F r.G
  refine ⟨{ A := (Spec.round W W1 j r.regs).A, B := (Spec.round W W1 j r.regs).B,
             C := (Spec.round W W1 j r.regs).C, D := (Spec.round W W1 j r.regs).D,
             E := (Spec.round W W1 j r.regs).E, F := (Spec.round W W1 j r.regs).F,
             G := (Spec.round W W1 j r.regs).G, H := (Spec.round W W1 j r.regs).H,
             Tjj := cf_Tjj j r.Tjj }, ?_, rfl, by rw [hT]; rfl⟩
  have e7 : ∀ x : Nat, SM3_CYCLE_LEFT (x % 2 ^ 32) 7 = Spec.rotl (x % 2 ^ 32) 7 :=
    fun x => SM3_CYCLE_LEFT_eq (Nat.mod_lt _ (by decide)) 7
  have eP : ∀ x : Nat, SM3_P0 (x % 2 ^ 32) = Spec.P0 (x % 2 ^ 32) :=
    fun x => SM3_P0_eq (Nat.mod_lt _ (by decide))
  unfold cf_round
  simp only [rW, rW1, Option.pure_def, Option.bind_eq_bind, Option.some_bind, bind_pure_comp,
    Option.map_eq_map, Option.map_some', apply_ite some, ite_self]
  by_cases h : j > 15
  · simp only [h, if_true] at hff hgg ⊢
    simp only [u32_mod_add, u32_add2, SM3_CYCLE_LEFT_eq hA, SM3_CYCLE_LEFT_eq hB,
      SM3_CYCLE_LEFT_eq hF, e7, eP, hTj, hff, hgg]
    rfl
  · simp only [h, if_false] at hff hgg ⊢
    simp only [u32_mod_add, u32_add2, SM3_CYCLE_LEFT_eq hA, SM3_CYCLE_LEFT_eq hB,
      SM3_CYCLE_LEFT_eq hF, e7, eP, hTj, hff, hgg]
    rfl

theorem length_eight {V : List Nat} (h : V.length = 8) :
    ∃ a b c d e f g k, V = [a, b, c, d, e, f, g, k] := by
  match V, h with
  | [a, b, c, d, e, f, g, k], _ => exact ⟨a, b, c, d, e, f, g, k, rfl⟩

theorem cf_eq {V W W1 : List Nat} (hV : V.length = 8) (hVb : ∀ x ∈ V, x < 4294967296)
    (hW : W.length = 68) (hW1 : W1.length = 64) :
    cf V W W1 = some
      (let r := Spec.rounds W W1 64 (Spec.regsOf V)
       [V.getD 0 0 ^^^ r.A, V.getD 1 0 ^^^ r.B, V.getD 2 0 ^^^ r.C, V.getD 3 0 ^^^ r.D,
        V.getD 4 0 ^^^ r.E, V.getD 5 0 ^^^ r.F, V.getD 6 0 ^^^ r.G, V.getD 7 0 ^^^ r.H]) := by
  obtain ⟨a, b, c, d, e, f, g, k, rfl⟩ := length_eight hV
  have hb0 : (Spec.regsOf [a, b, c, d, e, f, g, k]).Bounded := by
    simp only [List.mem_cons, List.mem_singleton, forall_eq_or_imp, forall_eq] at hVb
    simp only [List.not_mem_nil, false_implies, implies_true, and_true] at hVb
    exact hVb
  have hload : cf_load [a, b, c, d, e, f, g, k] =
      some { A := a, B := b, C := c, D := d, E := e, F := f, G := g, H := k, Tjj := T00_15 } := by
    simp [cf_load, rd]
  obtain ⟨r, hr, hregs, _⟩ := forLoop_inv (cf_round W W1)
    (fun j r => r.regs = Spec.rounds W W1 j (Spec.regsOf [a, b, c, d, e, f, g, k]) ∧
      r.Tjj = cf_TjjAt j) 64 0
    { A := a, B := b, C := c, D := d, E := e, F := f, G := g, H := k, Tjj := T00_15 }
    ⟨rfl, rfl⟩
    (by
      intro j r _ hj hP
      obtain ⟨r', h1, h2, h3⟩ := cf_round_eq hW hW1 (show j < 64 by omega)
        (by rw [hP.1]; exact rounds_bounded W W1 j hb0) hP.2
      exact ⟨r', h1, by rw [h2, hP.1]; rfl, h3⟩)
  unfold cf
  rw [hload, Option.bind_eq_bind, Option.some_bind, hr, Option.some_bind]
  have hA : r.A = r.regs.A := rfl
  have hB : r.B = r.regs.B := rfl
  have hC : r.C = r.regs.C := rfl
  have hD : r.D = r.regs.D := rfl
  have hE : r.E = r.regs.E := rfl
  have hF : r.F = r.regs.F := rfl
  have hG : r.G = r.regs.G := rfl
  have hH : r.H = r.regs.H := rfl
  simp only [cf_store, cf_xor, rd, wr, hA, hB, hC, hD, hE, hF, hG, hH, hregs]
  simp

theorem CF_length (V b : List Nat) : (Spec.CF V b).length = 8 := rfl

theorem CF_lt {V : List Nat} (hVb : ∀ x ∈ V, x < 4294967296) (hV : V.length = 8) (b : List Nat) :
    ∀ x ∈ Spec.CF V b, x < 4294967296 := by
  obtain ⟨a, b', c, d, e, f, g, k, rfl⟩ := length_eight hV
  have hb0 : (Spec.regsOf [a, b', c, d, e, f, g, k]).Bounded := by
    simp only [List.mem_cons, List.mem_singleton, forall_eq_or_imp, forall_eq] at hVb
    simp only [List.not_mem_nil, false_implies, implies_true, and_true] at hVb
    exact hVb
  have hr := rounds_bounded (Spec.W b) (Spec.W' (Spec.W b)) 64 hb0
  obtain ⟨h1, h2, h3, h4, h5, h6, h7, h8⟩ := hb0
  obtain ⟨g1, g2, g3, g4, g5, g6, g7, g8⟩ := hr
  intro x hx
  simp only [Spec.CF, List.mem_cons, List.mem_singleton, List.not_mem_nil, or_false] at hx
  rcases hx with rfl | rfl | rfl | rfl | rfl | rfl | rfl | rfl
  · exact xor_lt32 h1 g1
  · exact xor_lt32 h2 g2
  · exact xor_lt32 h3 g3
  · exact xor_lt32 h4 g4
  · exact xor_lt32 h5 g5
  · exact xor_lt32 h6 g6
  · exact xor_lt32 h7 g7
  · exact xor_lt32 h8 g8

/-- The function `sm3_compress` replaces the registers by the compression
function of the specification applied to them and to the buffer. -/
theorem sm3_compress_eq {s : sm3_hash_t} (hiv : s.iv.length = 8)
    (hivb : ∀ x ∈ s.iv, x < 4294967296) (hbuf : s.buf.length = 64) (hbytes : isBytes s.buf) :
    sm3_compress s = some { s with iv := Spec.CF s.iv s.buf } := by
  unfold sm3_compress
  rw [msg_expand_B1_W_eq hbuf hbytes (by simp), Option.bind_eq_bind, Option.some_bind,
    msg_expand_W_W1_eq (W_length _) (by simp), Option.some_bind,
    cf_eq hiv hivb (W_length _) (W'_length _), Option.some_bind]
  rfl

/-! ## The abstract content of a state along the API functions -/

theorem Holds.length_le {s : sm3_hash_t} {iv : List Nat} {ml : Nat} {P : List Nat}
    (h : Holds s iv ml P) : P.length ≤ 64 := by
  have h1 := congrArg List.length h.pend_eq
  have h2 := h.wf.2.2.2.1
  simp only [List.length_take] at h1
  omega

theorem Holds.pending_isBytes {s : sm3_hash_t} {iv : List Nat} {ml : Nat} {P : List Nat}
    (h : Holds s iv ml P) : isBytes P := by
  intro x hx
  rw [← h.pend_eq] at hx
  exact h.wf.2.2.2.2.1 x (List.mem_of_mem_take hx)

theorem holds_of_WF {s : sm3_hash_t} (h : s.WF) (hc : s.cur_len ≤ 64) :
    Holds s s.iv s.message_length (s.buf.take s.cur_len) := by
  have hl : (s.buf.take s.cur_len).length = s.cur_len := by
    rw [List.length_take, h.2.2.2.1]; omega
  exact ⟨h, rfl, rfl, hl.symm, by rw [hl]⟩

theorem sm3_init_eq (prior : sm3_hash_t) :
    sm3_init prior =
      { iv := Spec.IV, message_length := 0, buf := List.replicate 64 0, cur_len := 0 } := rfl

theorem holds_init (prior : sm3_hash_t) : Holds (sm3_init prior) Spec.IV 0 [] := by
  rw [sm3_init_eq]
  exact ⟨by decide, rfl, rfl, rfl, rfl⟩

theorem isBytes_set {l : List Nat} (h : isBytes l) (i : Nat) {v : Nat} (hv : v < 256) :
    isBytes (l.set i v) := by
  intro x hx
  rcases List.mem_or_eq_of_mem_set hx with hx | rfl
  · exact h x hx
  · exact hv

theorem holds_put {s : sm3_hash_t} {iv : List Nat} {ml : Nat} {P : List Nat}
    (h : Holds s iv ml P) (hP : P.length < 64) {v : Nat} (hv : v < 256) :
    Holds { s with buf := s.buf.set P.length v, cur_len := P.length + 1 } iv ml (P ++ [v]) := by
  obtain ⟨h1, h2, h3, h4, h5, h6⟩ := h.wf
  refine ⟨⟨h1, h2, h3, by simp [h4], isBytes_set h5 _ hv, by show P.length + 1 < 4294967296; omega⟩,
    h.iv_eq, h.ml_eq, by simp, ?_⟩
  show (s.buf.set P.length v).take (P ++ [v]).length = P ++ [v]
  rw [List.length_append, List.length_singleton, take_set_succ _ _ _ (by omega), h.pend_eq]

theorem sm3_done_put_eq {s : sm3_hash_t} {iv : List Nat} {ml : Nat} {P : List Nat}
    (h : Holds s iv ml P) (hP : P.length < 64) (v : Nat) :
    sm3_done_put s v = some { s with buf := s.buf.set P.length v, cur_len := P.length + 1 } := by
  have hl := h.wf.2.2.2.1
  unfold sm3_done_put
  rw [h.len_eq, wr_of_lt (by omega), Option.bind_eq_bind, Option.some_bind,
    u32_of_lt (by omega)]
  rfl

theorem holds_compress {s : sm3_hash_t} {iv : List Nat} {ml : Nat} {P : List Nat}
    (h : Holds s iv ml P) (hP : P.length = 64) :
    sm3_compress s = some { s with iv := Spec.CF iv P } ∧
      Holds { s with iv := Spec.CF iv P } (Spec.CF iv P) ml P := by
  obtain ⟨h1, h2, h3, h4, h5, h6⟩ := h.wf
  have hbuf : s.buf = P := by
    have := h.pend_eq
    rw [hP, ← h4, List.take_length] at this
    exact this
  constructor
  · rw [sm3_compress_eq h1 h2 h4 h5, h.iv_eq, hbuf]
  · exact ⟨⟨CF_length _ _, CF_lt (by rw [← h.iv_eq]; exact h2) (by rw [← h.iv_eq]; exact h1) _,
      h3, h4, h5, h6⟩, rfl, h.ml_eq, h.len_eq, h.pend_eq⟩

theorem holds_reset {s : sm3_hash_t} {iv : List Nat} {ml : Nat} {P : List Nat}
    (h : Holds s iv ml P) (ml' : Nat) (hml : ml' < 4294967296) :
    Holds { s with message_length := ml', cur_len := 0 } iv ml' [] := by
  obtain ⟨h1, h2, h3, h4, h5, h6⟩ := h.wf
  exact ⟨⟨h1, h2, hml, h4, h5, by show 0 < 4294967296; decide⟩, h.iv_eq, rfl, rfl, by simp⟩

theorem sm3_process_byte_holds {s : sm3_hash_t} {iv : List Nat} {ml : Nat} {P : List Nat}
    (h : Holds s iv ml P) (hP : P.length < 64) {x : Nat} (hx : x < 256) :
    ∃ s', sm3_process_byte s x = some s' ∧
      ((P.length = 63 ∧ Holds s' (Spec.CF iv (P ++ [x])) (u32 (ml + 512)) []) ∨
       (P.length < 63 ∧ Holds s' iv ml (P ++ [x]))) := by
  have hl := h.wf.2.2.2.1
  have hput := holds_put h hP hx
  have hstep : sm3_process_byte s x =
      (if P.length + 1 = 64 then
        (sm3_compress { s with buf := s.buf.set P.length x, cur_len := P.length + 1 }).bind
          (fun s2 => some { s2 with message_length := u32 (s2.message_length + 512),
                                    cur_len := 0 })
       else some { s with buf := s.buf.set P.length x, cur_len := P.length + 1 }) := by
    unfold sm3_process_byte
    rw [h.len_eq, wr_of_lt (by omega), Option.bind_eq_bind, Option.some_bind,
      u32_of_lt (by omega)]
    rfl
  by_cases h63 : P.length = 63
  · obtain ⟨hc, hh⟩ := holds_compress hput (by simp [h63])
    refine ⟨_, ?_, Or.inl ⟨h63, holds_reset hh (u32 (ml + 512)) (u32_lt _)⟩⟩
    rw [hstep, if_pos (by omega), hc, Option.some_bind]
    show some _ = some _
    rw [show s.message_length = ml from h.ml_eq]
  · refine ⟨_, ?_, Or.inr ⟨by omega, hput⟩⟩
    rw [hstep, if_neg (by omega)]

theorem blocks_cons {B : List Nat} (hB : B.length = 64) (q : Nat) (rest : List Nat) :
    Spec.blocks (q + 1) (B ++ rest) = B :: Spec.blocks q rest := by
  simp only [Spec.blocks]
  rw [← hB, List.take_left, List.drop_left]

/-- Bookkeeping of `sm3_process`: from pending bytes `P`, absorbing `m` compresses
the complete blocks of `P ++ m` in order, adds 512 to the counter for each, and
leaves the rest of `P ++ m` pending. -/
theorem sm3_process_holds (m : List Nat) :
    ∀ {s : sm3_hash_t} {iv : List Nat} {ml : Nat} {P : List Nat},
    Holds s iv ml P → P.length < 64 → isBytes m →
    ∃ s', sm3_process s m = some s' ∧
      Holds s' ((Spec.blocks ((P.length + m.length) / 64) (P ++ m)).foldl Spec.CF iv)
        (u32 (ml + 512 * ((P.length + m.length) / 64)))
        ((P ++ m).drop (64 * ((P.length + m.length) / 64))) := by
  induction m with
  | nil =>
    intro s iv ml P h hP _
    have hq : (P.length + ([] : List Nat).length) / 64 = 0 := by
      simp only [List.length_nil, Nat.add_zero]; omega
    refine ⟨s, rfl, ?_⟩
    rw [hq]
    have hml : ml < 4294967296 := by rw [← h.ml_eq]; exact h.wf.2.2.1
    simpa [Spec.blocks, u32_of_lt hml] using h
  | cons x m ih =>
    intro s iv ml P h hP hm
    have hx : x < 256 := hm x (List.mem_cons_self _ _)
    have hm' : isBytes m := fun y hy => hm y (List.mem_cons_of_mem _ hy)
    obtain ⟨s1, hs1, hcase⟩ := sm3_process_byte_holds h hP hx
    rcases hcase with ⟨h63, hh⟩ | ⟨h63, hh⟩
    · obtain ⟨s2, hs2, hh2⟩ := ih hh (by simp) hm'
      refine ⟨s2, by simp [sm3_process, hs1, hs2], ?_⟩
      have hq : (P.length + (x :: m).length) / 64 = m.length / 64 + 1 := by
        simp only [List.length_cons]; omega
      have happ : P ++ x :: m = (P ++ [x]) ++ m := by simp
      have hlen : (P ++ [x]).length = 64 := by simp [h63]
      have hml : u32 (u32 (ml + 512) + 512 * (m.length / 64)) =
          u32 (ml + 512 * (m.length / 64 + 1)) := by
        unfold u32; omega
      rw [hq, happ, blocks_cons hlen, List.foldl_cons, ← hml]
      have hdrop : ((P ++ [x]) ++ m).drop (64 * (m.length / 64 + 1)) =
          m.drop (64 * (m.length / 64)) := by
        have : 64 * (m.length / 64 + 1) = (P ++ [x]).length + 64 * (m.length / 64) := by
          rw [hlen]; omega
        rw [this, List.drop_append]
      rw [hdrop]
      simpa using hh2
    · obtain ⟨s2, hs2, hh2⟩ := ih hh (by simp; omega) hm'
      refine ⟨s2, by simp [sm3_process, hs1, hs2], ?_⟩
      have hq : ((P ++ [x]).length + m.length) = (P.length + (x :: m).length) := by
        simp only [List.length_append, List.length_cons, List.length_nil]; omega
      have happ : (P ++ [x]) ++ m = P ++ x :: m := by simp
      rw [hq, happ] at hh2
      exact hh2

theorem put_holds {s : sm3_hash_t} {iv : List Nat} {ml : Nat} {P : List Nat}
    (h : Holds s iv ml P) (hP : P.length < 64) {v : Nat} (hv : v < 256) :
    ∃ s', sm3_done_put s v = some s' ∧ Holds s' iv ml (P ++ [v]) :=
  ⟨_, sm3_done_put_eq h hP v, holds_put h hP hv⟩

theorem sm3_done_fill_holds {limit : Nat} (hlim : limit ≤ 64) {iv : List Nat} {ml : Nat} :
    ∀ (fuel : Nat) {s : sm3_hash_t} {P : List Nat}, Holds s iv ml P → P.length ≤ limit →
    limit - P.length ≤ fuel →
    ∃ s', sm3_done_fill limit fuel s = some s' ∧
      Holds s' iv ml (P ++ List.replicate (limit - P.length) 0) := by
  intro fuel
  induction fuel with
  | zero =>
    intro s P h hP hf
    have he : limit - P.length = 0 := by omega
    refine ⟨s, ?_, by simpa [he] using h⟩
    simp only [sm3_done_fill, h.len_eq]
    rw [if_neg (by omega)]
  | succ fuel ih =>
    intro s P h hP hf
    by_cases hc : P.length < limit
    · obtain ⟨s1, hs1, hh1⟩ := put_holds h (by omega) (show 0 < 256 by decide)
      obtain ⟨s2, hs2, hh2⟩ := ih hh1 (by simp; omega) (by simp; omega)
      refine ⟨s2, ?_, ?_⟩
      · have : sm3_done_fill limit (fuel + 1) s =
            (sm3_done_put s 0).bind (sm3_done_fill limit fuel) := by
          simp only [sm3_done_fill, h.len_eq, if_pos hc, sm3_done_put]
          cases wr s.buf P.length 0 <;> rfl
        rw [this, hs1, Option.some_bind, hs2]
      · have e : limit - P.length = (limit - (P ++ [0]).length) + 1 := by
          simp only [List.length_append, List.length_singleton]; omega
        rw [e, List.replicate_succ]
        simpa using hh2
    · have he : limit - P.length = 0 := by omega
      refine ⟨s, ?_, by simpa [he] using h⟩
      simp only [sm3_done_fill, h.len_eq]
      rw [if_neg hc]

theorem byte_eq (x k : Nat) : (x >>> k) &&& 0xff = x / 2 ^ k % 256 := by
  rw [Nat.shiftRight_eq_div_pow]
  exact Nat.and_pow_two_sub_one_eq_mod _ 8

theorem byte_lt (x k : Nat) : (x >>> k) &&& 0xff < 256 := by
  rw [byte_eq]; omega

theorem be32_eq (x : Nat) :
    [(x >>> 24) &&& 0xff, (x >>> 16) &&& 0xff, (x >>> 8) &&& 0xff, (x >>> 0) &&& 0xff] =
      Spec.be32 x := by
  simp only [byte_eq, Spec.be32, Nat.pow_zero, Nat.div_one]

theorem sm3_done_length_holds {s : sm3_hash_t} {iv : List Nat} {ml : Nat} {P : List Nat}
    (h : Holds s iv ml P) (hP : P.length = 56) :
    ∃ s', sm3_done_length s = some s' ∧ Holds s' iv ml (P ++ ([0, 0, 0, 0] ++ Spec.be32 ml)) := by
  have z : (0 : Nat) < 256 := by decide
  obtain ⟨s1, e1, h1⟩ := put_holds h (by omega) z
  obtain ⟨s2, e2, h2⟩ := put_holds h1 (by simp; omega) z
  obtain ⟨s3, e3, h3⟩ := put_holds h2 (by simp; omega) z
  obtain ⟨s4, e4, h4⟩ := put_holds h3 (by simp; omega) z
  obtain ⟨s5, e5, h5⟩ := put_holds h4 (by simp; omega) (byte_lt s4.message_length 24)
  obtain ⟨s6, e6, h6⟩ := put_holds h5 (by simp; omega) (byte_lt s5.message_length 16)
  obtain ⟨s7, e7, h7⟩ := put_holds h6 (by simp; omega) (byte_lt s6.message_length 8)
  obtain ⟨s8, e8, h8⟩ := put_holds h7 (by simp; omega) (byte_lt s7.message_length 0)
  refine ⟨s8, ?_, ?_⟩
  · unfold sm3_done_length
    simp only [e1, e2, e3, e4, e5, e6, e7, e8, Option.bind_eq_bind, Option.some_bind]
  · rw [h4.ml_eq, h5.ml_eq, h6.ml_eq, h7.ml_eq] at h8
    rw [← be32_eq]
    simpa using h8

theorem sm3_done_out_eq (iv hash : List Nat) (i : Nat) (hiv : i < iv.length)
    (hh : 4 * i + 3 < hash.length) :
    ∃ hash', sm3_done_out iv i hash = some hash' ∧ hash'.length = hash.length ∧
      hash'.take (4 * (i + 1)) = hash.take (4 * i) ++ Spec.be32 (iv.getD i 0) := by
  have e : i <<< 2 = 4 * i := by rw [Nat.shiftLeft_eq]; omega
  refine ⟨(((hash.set (4 * i) ((iv.getD i 0 >>> 24) &&& 0xff)).set (4 * i + 1)
      ((iv.getD i 0 >>> 16) &&& 0xff)).set (4 * i + 2) ((iv.getD i 0 >>> 8) &&& 0xff)).set
      (4 * i + 3) ((iv.getD i 0 >>> 0) &&& 0xff), ?_, by simp, ?_⟩
  · simp only [sm3_done_out, e, rd_of_lt hiv, Option.bind_eq_bind, Option.some_bind]
    rw [wr_of_lt (by omega), Option.some_bind, wr_of_lt (by simp; omega), Option.some_bind,
      wr_of_lt (by simp; omega), Option.some_bind, wr_of_lt (by simp; omega)]
  · have e4 : 4 * (i + 1) = 4 * i + 3 + 1 := by omega
    rw [e4, take_set_succ _ _ _ (by simp; omega), take_set_succ _ _ _ (by simp; omega),
      take_set_succ _ _ _ (by simp; omega), take_set_succ _ _ _ (by omega), ← be32_eq]
    simp

theorem serialize_take_succ (iv : List Nat) {j : Nat} (hj : j < iv.length) :
    Spec.serialize (iv.take (j + 1)) = Spec.serialize (iv.take j) ++ Spec.be32 (iv.getD j 0) := by
  unfold Spec.serialize
  rw [List.take_succ, List.getElem?_eq_getElem hj, List.getD_eq_getElem _ _ hj]
  simp only [Option.toList, List.map_append, List.map_cons, List.map_nil, List.flatten_append,
    List.flatten_cons, List.flatten_nil, List.append_nil]

/-- The output loop of `sm3_done` overwrites the 32 bytes of `hash` with the
serialised registers. -/
theorem sm3_done_out_loop {iv hash0 : List Nat} (hiv : iv.length = 8)
    (hh : hash0.length = 32) :
    forLoop (sm3_done_out iv) 8 0 hash0 = some (Spec.serialize iv) := by
  obtain ⟨r, h1, hl, hp⟩ := forLoop_inv (sm3_done_out iv)
    (fun j hash => hash.length = 32 ∧ hash.take (4 * j) = Spec.serialize (iv.take j)) 8 0 hash0
    ⟨hh, by simp [Spec.serialize]⟩
    (by
      intro j hash _ hj hP
      obtain ⟨hash', e1, e2, e3⟩ := sm3_done_out_eq iv hash j
        (by omega) (by omega)
      exact ⟨hash', e1, by omega, by rw [e3, hP.2, serialize_take_succ iv (by omega)]⟩)
  rw [h1]
  have : iv.take (0 + 8) = iv := by rw [← hiv]; simp
  rw [this] at hp
  rw [eq_of_take_length hl hp]

theorem holds_set_ml {s : sm3_hash_t} {iv : List Nat} {ml : Nat} {P : List Nat}
    (h : Holds s iv ml P) (L : Nat) (hL : L < 4294967296) :
    Holds { s with message_length := L } iv L P := by
  obtain ⟨h1, h2, h3, h4, h5, h6⟩ := h.wf
  exact ⟨⟨h1, h2, hL, h4, h5, h6⟩, h.iv_eq, rfl, h.len_eq, h.pend_eq⟩

theorem sm3_done_pad_holds {s : sm3_hash_t} {iv : List Nat} {ml : Nat} {P : List Nat}
    (h : Holds s iv ml P) (hP : P.length < 64) :
    ∃ s', sm3_done_pad s = some s' ∧
      ((P.length ≤ 55 ∧ Holds s' iv (u32 (ml + u32 (P.length * 8))) (P ++ [0x80])) ∨
       (56 ≤ P.length ∧
        Holds s' (Spec.CF iv (P ++ [0x80] ++ List.replicate (63 - P.length) 0))
          (u32 (ml + u32 (P.length * 8))) [])) := by
  have h0 := holds_set_ml h (u32 (ml + u32 (P.length * 8))) (u32_lt _)
  obtain ⟨s1, e1, h1⟩ := put_holds h0 hP (show 0x80 < 256 by decide)
  have hc1 : s1.cur_len = P.length + 1 := by rw [h1.len_eq]; simp
  have hunf : sm3_done_pad s = (sm3_done_put
      { s with message_length := u32 (ml + u32 (P.length * 8)) } 0x80).bind
      (fun s1 => if s1.cur_len > 56 then
        (sm3_done_fill 64 64 s1).bind (fun s2 => (sm3_compress s2).bind
          (fun s3 => some { s3 with cur_len := 0 }))
        else some s1) := by
    unfold sm3_done_pad
    rw [h.ml_eq, h.len_eq]
    rfl
  rw [hunf, e1, Option.some_bind]
  by_cases hc : P.length ≤ 55
  · refine ⟨s1, ?_, Or.inl ⟨hc, h1⟩⟩
    rw [if_neg (by omega)]
  · obtain ⟨s2, e2, h2⟩ := sm3_done_fill_holds (Nat.le_refl 64) 64 h1 (by simp; omega)
      (by omega)
    have hlen : (P ++ [0x80] ++ List.replicate (64 - (P ++ [0x80]).length) 0).length = 64 := by
      simp; omega
    have e63 : 64 - (P ++ [0x80]).length = 63 - P.length := by simp
    rw [e63] at h2 hlen
    obtain ⟨e3, h3⟩ := holds_compress h2 hlen
    have h4 := holds_reset h3 _ (u32_lt (ml + u32 (P.length * 8)))
    refine ⟨_, ?_, Or.inr ⟨by omega, h4⟩⟩
    rw [if_pos (by omega), e2, Option.some_bind, e3, Option.some_bind]
    show some _ = some _
    rw [← h2.ml_eq]

/-- The function `sm3_done`: the blocks `doneBlocks` are compressed in order, the
registers are serialised into `hash`, and the state left behind holds the last
block in its buffer. -/
theorem sm3_done_into_holds {s : sm3_hash_t} {iv : List Nat} {ml : Nat} {P : List Nat}
    (h : Holds s iv ml P) (hP : P.length < 64) (hash0 : List Nat) (hh : hash0.length = 32) :
    ∃ s' B, sm3_done_into s hash0 =
        some (s', Spec.serialize
          ((doneBlocks P (u32 (ml + u32 (P.length * 8)))).foldl Spec.CF iv)) ∧
      Holds s' ((doneBlocks P (u32 (ml + u32 (P.length * 8)))).foldl Spec.CF iv)
        (u32 (ml + u32 (P.length * 8))) B ∧
      (doneBlocks P (u32 (ml + u32 (P.length * 8)))).getLast? = some B ∧ B.length = 64 := by
  obtain ⟨s1, e1, hcase⟩ := sm3_done_pad_holds h hP
  have key : ∀ {iv1 : List Nat} {P1 : List Nat}, Holds s1 iv1 (u32 (ml + u32 (P.length * 8))) P1 →
      P1.length ≤ 56 →
      ∃ s', sm3_done_into s hash0 = some (s', Spec.serialize (Spec.CF iv1
          (P1 ++ List.replicate (56 - P1.length) 0 ++
            ([0, 0, 0, 0] ++ Spec.be32 (u32 (ml + u32 (P.length * 8))))))) ∧
        Holds s' (Spec.CF iv1 (P1 ++ List.replicate (56 - P1.length) 0 ++
            ([0, 0, 0, 0] ++ Spec.be32 (u32 (ml + u32 (P.length * 8))))))
          (u32 (ml + u32 (P.length * 8)))
          (P1 ++ List.replicate (56 - P1.length) 0 ++
            ([0, 0, 0, 0] ++ Spec.be32 (u32 (ml + u32 (P.length * 8))))) := by
    intro iv1 P1 h1 hP1
    obtain ⟨s2, e2, h2⟩ := sm3_done_fill_holds (show 56 ≤ 64 by decide) 64 h1 hP1 (by omega)
    obtain ⟨s3, e3, h3⟩ := sm3_done_length_holds h2 (by simp; omega)
    obtain ⟨e4, h4⟩ := holds_compress h3 (by simp [Spec.be32]; omega)
    refine ⟨_, ?_, h4⟩
    unfold sm3_done_into
    rw [e1, Option.bind_eq_bind, Option.some_bind, e2, Option.some_bind, e3, Option.some_bind,
      e4, Option.some_bind, sm3_done_out_loop (CF_length _ _) hh]
    rfl
  rcases hcase with ⟨hc, h1⟩ | ⟨hc, h1⟩
  · obtain ⟨s', e, hh'⟩ := key h1 (by simp; omega)
    have e55 : 56 - (P ++ [0x80]).length = 55 - P.length := by simp
    rw [e55] at e hh'
    have hd : doneBlocks P (u32 (ml + u32 (P.length * 8))) =
        [P ++ [0x80] ++ List.replicate (55 - P.length) 0 ++
          ([0, 0, 0, 0] ++ Spec.be32 (u32 (ml + u32 (P.length * 8))))] := by
      unfold doneBlocks; rw [if_pos hc]
    rw [hd]
    refine ⟨s', P ++ [0x80] ++ List.replicate (55 - P.length) 0 ++
          ([0, 0, 0, 0] ++ Spec.be32 (u32 (ml + u32 (P.length * 8)))), e, hh', rfl, ?_⟩
    simp [Spec.be32]; omega
  · obtain ⟨s', e, hh'⟩ := key h1 (by simp)
    have hn : ¬ P.length ≤ 55 := by omega
    have hd : doneBlocks P (u32 (ml + u32 (P.length * 8))) =
        [P ++ [0x80] ++ List.replicate (63 - P.length) 0,
         List.replicate 56 0 ++ ([0, 0, 0, 0] ++ Spec.be32 (u32 (ml + u32 (P.length * 8))))] := by
      unfold doneBlocks; rw [if_neg hn]
    rw [hd]
    refine ⟨s', List.replicate 56 0 ++
      ([0, 0, 0, 0] ++ Spec.be32 (u32 (ml + u32 (P.length * 8)))), e, hh', rfl, ?_⟩
    simp [Spec.be32]

/-! ## Padding and blocks of the specification -/

theorem padK_mod (n : Nat) : Spec.padK n = Spec.padK (n % 64) := by
  unfold Spec.padK
  congr 2
  funext k
  congr 1
  apply propext
  constructor <;> intro h <;> omega

theorem padK_small : ∀ r < 64, Spec.padK r = if r ≤ 55 then 55 - r else 119 - r := by
  decide

theorem padK_eq (n : Nat) :
    Spec.padK n = if n % 64 ≤ 55 then 55 - n % 64 else 119 - n % 64 := by
  rw [padK_mod, padK_small _ (Nat.mod_lt _ (by decide))]

/-- The number `padK n` is the least `k` with `n + 1 + k ≡ 56 (mod 64)`. -/
theorem padK_least (n : Nat) :
    (n + 1 + Spec.padK n) % 64 = 56 ∧ ∀ k, k < Spec.padK n → (n + 1 + k) % 64 ≠ 56 := by
  rw [padK_eq]
  constructor
  · split <;> omega
  · intro k hk
    split at hk <;> omega

theorem be64_of_lt {x : Nat} (h : x < 4294967296) :
    Spec.be64 x = [0, 0, 0, 0] ++ Spec.be32 x := by
  unfold Spec.be64
  have h1 : x / 2 ^ 32 % 2 ^ 32 = 0 := by
    simp only [Nat.reducePow]; omega
  have h2 : x % 2 ^ 32 = x := Nat.mod_eq_of_lt h
  rw [h1, h2]
  rfl

theorem blocks_append_right (q : Nat) : ∀ (l rest : List Nat), 64 * q ≤ l.length →
    Spec.blocks q (l ++ rest) = Spec.blocks q l := by
  induction q with
  | zero => intro l rest _; rfl
  | succ q ih =>
    intro l rest h
    simp only [Spec.blocks]
    rw [List.take_append_of_le_length (by omega), List.drop_append_of_le_length (by omega),
      ih _ _ (by simp; omega)]

theorem blocks_add (q r : Nat) : ∀ (l : List Nat), 64 * q ≤ l.length →
    Spec.blocks (q + r) l = Spec.blocks q l ++ Spec.blocks r (l.drop (64 * q)) := by
  induction q with
  | zero => intro l _; simp [Spec.blocks]
  | succ q ih =>
    intro l h
    have e : q + 1 + r = (q + r) + 1 := by omega
    rw [e]
    simp only [Spec.blocks]
    rw [ih _ (by simp; omega), List.drop_drop]
    have e2 : 64 + 64 * q = 64 * (q + 1) := by omega
    rw [e2]
    rfl

theorem blocks_one {B : List Nat} (hB : B.length = 64) : Spec.blocks 1 B = [B] := by
  simp only [Spec.blocks]
  rw [← hB, List.take_length]

theorem blocks_two (B1 B2 : List Nat) (h1 : B1.length = 64) (h2 : B2.length = 64) :
    Spec.blocks 2 (B1 ++ B2) = [B1, B2] := by
  rw [blocks_cons h1, blocks_one h2]

/-- The blocks of the padded message: the complete blocks of the message, then
the blocks compressed by `sm3_done` on the pending rest. -/
theorem blocks_pad (m : List Nat) (hn : 8 * m.length < 4294967296) :
    Spec.blocks ((Spec.pad m).length / 64) (Spec.pad m) =
      Spec.blocks (m.length / 64) m ++
        doneBlocks (m.drop (64 * (m.length / 64))) (8 * m.length) := by
  have hk := padK_eq m.length
  have hP : (m.drop (64 * (m.length / 64))).length = m.length % 64 := by
    rw [List.length_drop]; omega
  have hpadlen : (Spec.pad m).length = m.length + 1 + Spec.padK m.length + 8 := by
    simp [Spec.pad, Spec.be64, Spec.be32]; omega
  have hsplit : Spec.pad m = m ++ ([0x80] ++ List.replicate (Spec.padK m.length) 0 ++
      Spec.be64 (8 * m.length)) := by
    simp [Spec.pad]
  by_cases hc : m.length % 64 ≤ 55
  · rw [if_pos hc] at hk
    have hq : (Spec.pad m).length / 64 = m.length / 64 + 1 := by rw [hpadlen, hk]; omega
    rw [hq, blocks_add _ _ _ (by rw [hpadlen]; omega), hsplit,
      blocks_append_right _ _ _ (by omega), List.drop_append_of_le_length (by omega)]
    congr 1
    unfold doneBlocks
    rw [hP, if_pos hc, be64_of_lt hn, hk]
    rw [blocks_one (by simp [Spec.be32, hP]; omega)]
    simp
  · rw [if_neg hc] at hk
    have hq : (Spec.pad m).length / 64 = m.length / 64 + 2 := by rw [hpadlen, hk]; omega
    rw [hq, blocks_add _ _ _ (by rw [hpadlen]; omega), hsplit,
      blocks_append_right _ _ _ (by omega), List.drop_append_of_le_length (by omega)]
    congr 1
    unfold doneBlocks
    rw [hP, if_neg hc, be64_of_lt hn, hk]
    have e : 119 - m.length % 64 = (63 - m.length % 64) + 56 := by omega
    rw [e, List.replicate_add]
    rw [← blocks_two (m.drop (64 * (m.length / 64)) ++ [0x80] ++
        List.replicate (63 - m.length % 64) 0)
      (List.replicate 56 0 ++ ([0, 0, 0, 0] ++ Spec.be32 (8 * m.length)))
      (by simp [hP]; omega) (by simp [Spec.be32])]
    simp

/-! ## Calls in sequence -/

theorem sm3_process_append (a b : List Nat) : ∀ (s : sm3_hash_t),
    sm3_process s (a ++ b) = (sm3_process s a).bind (fun s1 => sm3_process s1 b) := by
  induction a with
  | nil => intro s; rfl
  | cons x a ih =>
    intro s
    simp only [List.cons_append, sm3_process]
    cases sm3_process_byte s x with
    | none => rfl
    | some s1 => simp only [Option.some_bind]; exact ih s1

theorem sm3_process_calls_eq (chunks : List (List Nat)) : ∀ (s : sm3_hash_t),
    sm3_process_calls s chunks = sm3_process s chunks.flatten := by
  induction chunks with
  | nil => intro s; rfl
  | cons c cs ih =>
    intro s
    simp only [sm3_process_calls, List.flatten_cons, sm3_process_append]
    cases sm3_process s c with
    | none => rfl
    | some s1 => simp only [Option.some_bind]; exact ih s1

theorem isBytes_flatten {chunks : List (List Nat)} (h : ∀ c ∈ chunks, isBytes c) :
    isBytes chunks.flatten := by
  intro x hx
  obtain ⟨c, hc, hxc⟩ := List.mem_flatten.mp hx
  exact h c hc x hxc

theorem foldl_CF_length {iv : List Nat} (h : iv.length = 8) (bs : List (List Nat)) :
    (bs.foldl Spec.CF iv).length = 8 := by
  induction bs generalizing iv with
  | nil => exact h
  | cons b bs ih => exact ih (CF_length iv b)

theorem serialize_length {V : List Nat} (h : V.length = 8) : (Spec.serialize V).length = 32 := by
  obtain ⟨a, b, c, d, e, f, g, k, rfl⟩ := length_eight h
  rfl

/-- The digest of a message absorbed from the fresh state in one call. -/
theorem sm3_digest_eq (prior : sm3_hash_t) {m : List Nat} (hm : isBytes m) :
    ∃ s1, sm3_process (sm3_init prior) m = some s1 ∧ s1.WF ∧
      s1.cur_len = m.length % 64 ∧
      s1.message_length = u32 (512 * (m.length / 64)) ∧
      sm3_digest prior m = some (Spec.serialize
        ((Spec.blocks (m.length / 64) m ++
          doneBlocks (m.drop (64 * (m.length / 64)))
            (u32 (8 * m.length))).foldl Spec.CF Spec.IV)) := by
  obtain ⟨s1, e1, h1⟩ := sm3_process_holds m (holds_init prior) (by simp) hm
  simp only [List.length_nil, Nat.zero_add, List.nil_append] at h1
  have hP : (m.drop (64 * (m.length / 64))).length = m.length % 64 := by
    rw [List.length_drop]; omega
  obtain ⟨s2, B, e2, _⟩ := sm3_done_into_holds h1 (by rw [hP]; exact Nat.mod_lt _ (by decide))
    (List.replicate 32 0) (by simp)
  have hL : u32 (u32 (512 * (m.length / 64)) + u32 ((m.drop (64 * (m.length / 64))).length * 8))
      = u32 (8 * m.length) := by
    rw [hP]; unfold u32; omega
  rw [hL] at e2
  refine ⟨s1, e1, h1.wf, by rw [h1.len_eq, hP], h1.ml_eq, ?_⟩
  unfold sm3_digest sm3_done
  rw [e1, Option.some_bind, e2, List.foldl_append]
  rfl

/-! ## The claims -/

/-- C1: chunking invariance. For every state with `cur_len < 64` and byte
sequences `a`, `b` shorter than `2^32`, absorbing `a` and then `b` leaves exactly
the state a single absorption of `a ++ b` leaves (and a well-formed state is in
fact left). Consequently two splits of one message into `sm3_process` calls,
after `sm3_init` and followed by `sm3_done`, yield the same 32-byte digest. -/
theorem C1_chunking_invariance (s : sm3_hash_t) (a b : List Nat)
    (hs : s.cur_len < 64) (_ha : a.length < 4294967296) (_hb : b.length < 4294967296) :
    (sm3_process s a).bind (fun s1 => sm3_process s1 b) = sm3_process s (a ++ b) ∧
    (s.WF → isBytes a → isBytes b → ∃ s', sm3_process s (a ++ b) = some s' ∧ s'.WF) ∧
    ∀ (prior : sm3_hash_t) (chunks1 chunks2 : List (List Nat)),
      (∀ c ∈ chunks1, c.length < 4294967296 ∧ isBytes c) →
      (∀ c ∈ chunks2, c.length < 4294967296 ∧ isBytes c) →
      chunks1.flatten = chunks2.flatten →
      ∃ d, d.length = 32 ∧ sm3_digest_calls prior chunks1 = some d ∧
        sm3_digest_calls prior chunks2 = some d := by
  refine ⟨(sm3_process_append a b s).symm, ?_, ?_⟩
  · intro hwf hba hbb
    have hab : isBytes (a ++ b) := by
      intro x hx
      rcases List.mem_append.mp hx with h | h
      · exact hba x h
      · exact hbb x h
    obtain ⟨s', e, h⟩ := sm3_process_holds (a ++ b) (holds_of_WF hwf (by omega))
      (by rw [List.length_take, hwf.2.2.2.1]; omega) hab
    exact ⟨s', e, h.wf⟩
  · intro prior chunks1 chunks2 h1 h2 heq
    have hb1 : isBytes chunks1.flatten := isBytes_flatten (fun c hc => (h1 c hc).2)
    obtain ⟨s1, _, _, _, _, hd⟩ := sm3_digest_eq prior hb1
    have e1 : sm3_digest_calls prior chunks1 = sm3_digest prior chunks1.flatten := by
      unfold sm3_digest_calls
      rw [sm3_process_calls_eq]
      rfl
    have e2 : sm3_digest_calls prior chunks2 = sm3_digest prior chunks1.flatten := by
      unfold sm3_digest_calls
      rw [sm3_process_calls_eq, ← heq]
      rfl
    exact ⟨_, serialize_length (foldl_CF_length (show Spec.IV.length = 8 from rfl) _), e1.trans hd, e2.trans hd⟩

/-- C1 at a concrete input: the demo bytes split as 3 + 3 from the fresh state,
and the digest of the splits 6, 3 + 3 and 1 + 1 + 1 + 1 + 1 + 1. -/
theorem C1_chunking_invariance_witness :
    (sm3_init stale).cur_len < 64 ∧
    (sm3_process (sm3_init stale) [1, 2, 3]).bind (fun s1 => sm3_process s1 [4, 5, 6]) =
      sm3_process (sm3_init stale) ([1, 2, 3] ++ [4, 5, 6]) ∧
    (∃ d, d.length = 32 ∧ sm3_digest_calls stale [[1, 2, 3, 4, 5, 6]] = some d ∧
      sm3_digest_calls stale [[1], [2], [3], [4], [5], [6]] = some d) :=
  ⟨by decide,
   (C1_chunking_invariance (sm3_init stale) [1, 2, 3] [4, 5, 6] (by decide) (by decide)
      (by decide)).1,
   (C1_chunking_invariance (sm3_init stale) [1, 2, 3] [4, 5, 6] (by decide) (by decide)
      (by decide)).2.2 stale [[1, 2, 3, 4, 5, 6]] [[1], [2], [3], [4], [5], [6]]
      (by decide) (by decide) (by decide)⟩

/-- C2: end-to-end correctness. For every byte sequence `m` of fewer than `2^29`
bytes, `sm3_init`, `sm3_process` over `m`, `sm3_done` outputs the serialisation
of the compression function folded from the standard IV over the 64-byte blocks
of the padded message `m ++ 0x80 ++ k zeros ++ (8n as 8 big-endian bytes)`, with
`k` the least number such that `n + 1 + k ≡ 56 (mod 64)`. -/
theorem C2_end_to_end (prior : sm3_hash_t) (m : List Nat) (hm : isBytes m)
    (hn : m.length < 536870912) :
    sm3_digest prior m = some (Spec.hash m) ∧
    Spec.pad m = m ++ [0x80] ++ List.replicate (Spec.padK m.length) 0 ++
      Spec.be64 (8 * m.length) ∧
    (m.length + 1 + Spec.padK m.length) % 64 = 56 ∧
    (∀ k, k < Spec.padK m.length → (m.length + 1 + k) % 64 ≠ 56) := by
  obtain ⟨s1, _, _, _, _, hd⟩ := sm3_digest_eq prior hm
  have h8 : 8 * m.length < 4294967296 := by omega
  refine ⟨?_, rfl, (padK_least m.length).1, (padK_least m.length).2⟩
  rw [hd, u32_of_lt h8]
  unfold Spec.hash
  rw [blocks_pad m h8]

set_option maxRecDepth 100000 in
/-- C2 at the demo input `01 02 03 04 05 06` of `main`, whose SM3 digest is
`2c0e1450 47c5f23e 6331c020 95aa88b0 04016922 e0f352a7 6571c9be 739486c8`. -/
theorem C2_end_to_end_witness :
    isBytes test_data ∧ test_data.length < 536870912 ∧
    sm3_digest stale test_data = some (Spec.hash test_data) ∧
    Spec.hash test_data =
      [0x2c, 0x0e, 0x14, 0x50, 0x47, 0xc5, 0xf2, 0x3e, 0x63, 0x31, 0xc0, 0x20, 0x95, 0xaa,
        0x88, 0xb0, 0x04, 0x01, 0x69, 0x22, 0xe0, 0xf3, 0x52, 0xa7, 0x65, 0x71, 0xc9, 0xbe,
        0x73, 0x94, 0x86, 0xc8] :=
  ⟨by decide, by decide, (C2_end_to_end stale test_data (by decide) (by decide)).1, by decide⟩

set_option maxRecDepth 100000 in
/-- C3: known answer for the empty message. `sm3_init` followed directly by
`sm3_done`, or with a `sm3_process` of length 0 in between, outputs
`1ab21d83 55cfa17f 8e611948 31e81a8f 22bec8c7 28fefb74 7ed035eb 5082aa2b`. -/
theorem C3_empty_message (prior : sm3_hash_t) :
    (sm3_done (sm3_init prior)).map Prod.snd =
      some [0x1a, 0xb2, 0x1d, 0x83, 0x55, 0xcf, 0xa1, 0x7f, 0x8e, 0x61, 0x19, 0x48, 0x31, 0xe8,
        0x1a, 0x8f, 0x22, 0xbe, 0xc8, 0xc7, 0x28, 0xfe, 0xfb, 0x74, 0x7e, 0xd0, 0x35, 0xeb,
        0x50, 0x82, 0xaa, 0x2b] ∧
    sm3_digest prior [] =
      some [0x1a, 0xb2, 0x1d, 0x83, 0x55, 0xcf, 0xa1, 0x7f, 0x8e, 0x61, 0x19, 0x48, 0x31, 0xe8,
        0x1a, 0x8f, 0x22, 0xbe, 0xc8, 0xc7, 0x28, 0xfe, 0xfb, 0x74, 0x7e, 0xd0, 0x35, 0xeb,
        0x50, 0x82, 0xaa, 0x2b] := by
  have h : sm3_init prior = sm3_init stale := rfl
  unfold sm3_digest
  rw [h]
  decide

set_option maxRecDepth 100000 in
/-- C4: known answer for the standard example 1. `sm3_init`, `sm3_process` over
the bytes `61 62 63`, `sm3_done` outputs
`66c7f0f4 62eeedd9 d1f2d46b dc10e4e2 4167c487 5cf2f7a2 297da02b 8f4ba8e0`. -/
theorem C4_abc (prior : sm3_hash_t) :
    sm3_digest prior [0x61, 0x62, 0x63] =
      some [0x66, 0xc7, 0xf0, 0xf4, 0x62, 0xee, 0xed, 0xd9, 0xd1, 0xf2, 0xd4, 0x6b, 0xdc, 0x10,
        0xe4, 0xe2, 0x41, 0x67, 0xc4, 0x87, 0x5c, 0xf2, 0xf7, 0xa2, 0x29, 0x7d, 0xa0, 0x2b,
        0x8f, 0x4b, 0xa8, 0xe0] := by
  have h : sm3_init prior = sm3_init stale := rfl
  unfold sm3_digest
  rw [h]
  decide

set_option maxRecDepth 100000 in
/-- C5: known answer for the standard example 2. `sm3_init`, `sm3_process` over
the 64 bytes `61 62 63 64` repeated 16 times, `sm3_done` outputs
`debe9ff9 2275b8a1 38604889 c18e5a4d 6fdb70e5 387e5765 293dcba3 9c0c5732`. The
absorption compresses the one message block (the registers are then the
compression of the IV and the counter is 512, with nothing pending) and the
finalisation compresses one more block, the padding block. -/
theorem C5_abcd16 (prior : sm3_hash_t) :
    sm3_digest prior (List.replicate 16 [0x61, 0x62, 0x63, 0x64]).flatten =
      some [0xde, 0xbe, 0x9f, 0xf9, 0x22, 0x75, 0xb8, 0xa1, 0x38, 0x60, 0x48, 0x89, 0xc1, 0x8e,
        0x5a, 0x4d, 0x6f, 0xdb, 0x70, 0xe5, 0x38, 0x7e, 0x57, 0x65, 0x29, 0x3d, 0xcb, 0xa3,
        0x9c, 0x0c, 0x57, 0x32] ∧
    (sm3_process (sm3_init prior) (List.replicate 16 [0x61, 0x62, 0x63, 0x64]).flatten).map
        (fun s => (s.iv, s.message_length, s.cur_len)) =
      some (Spec.CF Spec.IV (List.replicate 16 [0x61, 0x62, 0x63, 0x64]).flatten, 512, 0) ∧
    sm3_digest prior (List.replicate 16 [0x61, 0x62, 0x63, 0x64]).flatten =
      some (Spec.serialize (Spec.CF
        (Spec.CF Spec.IV (List.replicate 16 [0x61, 0x62, 0x63, 0x64]).flatten)
        ([0x80] ++ List.replicate 55 0 ++ [0, 0, 0, 0, 0, 0, 0x02, 0x00]))) := by
  have h : sm3_init prior = sm3_init stale := rfl
  unfold sm3_digest
  rw [h]
  decide

/-- C6: `sm3_init` produces the fresh state: the eight registers are the
standard constants in order, `message_length = 0`, `cur_len = 0`, and the 64
buffer bytes are zero, whatever the object held before. -/
theorem C6_init_state (prior : sm3_hash_t) :
    sm3_init prior =
      { iv := [0x7380166f, 0x4914b2b9, 0x172442d7, 0xda8a0600, 0xa96f30bc, 0x163138aa,
               0xe38dee4d, 0xb0fb0e4e],
        message_length := 0,
        buf := List.replicate 64 0,
        cur_len := 0 } := rfl

/-- C7: pending-length invariant. `cur_len < 64` holds for the state `sm3_init`
returns; `sm3_process` on a state with `cur_len < 64` returns a state with
`cur_len < 64`, for every byte sequence; hence it holds after `sm3_init`
followed by any sequence of `sm3_process` calls. -/
theorem C7_pending_length_invariant (s : sm3_hash_t) (m : List Nat) (hwf : s.WF)
    (hs : s.cur_len < 64) (_hlen : m.length < 4294967296) (hm : isBytes m) :
    (∃ s', sm3_process s m = some s' ∧ s'.WF ∧ s'.cur_len < 64) ∧
    (∀ prior : sm3_hash_t, (sm3_init prior).WF ∧ (sm3_init prior).cur_len < 64) ∧
    (∀ (prior : sm3_hash_t) (chunks : List (List Nat)),
      (∀ c ∈ chunks, c.length < 4294967296 ∧ isBytes c) →
      ∃ s', sm3_process_calls (sm3_init prior) chunks = some s' ∧ s'.WF ∧ s'.cur_len < 64) := by
  have key : ∀ (t : sm3_hash_t) (l : List Nat), t.WF → t.cur_len < 64 → isBytes l →
      ∃ s', sm3_process t l = some s' ∧ s'.WF ∧ s'.cur_len < 64 := by
    intro t l ht hc hl
    have hlen : (t.buf.take t.cur_len).length = t.cur_len := by
      rw [List.length_take, ht.2.2.2.1]; omega
    obtain ⟨s', e, h⟩ := sm3_process_holds l (holds_of_WF ht (by omega)) (by omega) hl
    refine ⟨s', e, h.wf, ?_⟩
    have h64 := h.length_le
    rw [h.len_eq, List.length_drop, List.length_append]
    rw [List.length_drop, List.length_append] at h64
    omega
  refine ⟨key s m hwf hs hm,
    fun prior => ⟨(holds_init prior).wf, by rw [sm3_init_eq]; decide⟩, ?_⟩
  intro prior chunks hc
  rw [sm3_process_calls_eq]
  exact key _ _ (holds_init prior).wf (by rw [sm3_init_eq]; decide)
    (isBytes_flatten (fun c h => (hc c h).2))

/-- C7 at a concrete input: the demo bytes absorbed into the fresh state. -/
theorem C7_pending_length_invariant_witness :
    (sm3_init stale).WF ∧ (sm3_init stale).cur_len < 64 ∧
    test_data.length < 4294967296 ∧ isBytes test_data ∧
    (∃ s', sm3_process (sm3_init stale) test_data = some s' ∧ s'.WF ∧ s'.cur_len < 64) :=
  ⟨by decide, by decide, by decide, by decide,
   (C7_pending_length_invariant (sm3_init stale) test_data (by decide) (by decide) (by decide)
      (by decide)).1⟩

/-! ## Finalisation from a well-formed state -/

theorem doneBlocks_last {P : List Nat} (hP : P.length < 64) (L : Nat) {B : List Nat}
    (h : (doneBlocks P L).getLast? = some B) :
    B.drop 56 = [0, 0, 0, 0] ++ Spec.be32 L := by
  unfold doneBlocks at h
  by_cases hc : P.length ≤ 55
  · rw [if_pos hc] at h
    simp only [List.getLast?_singleton, Option.some.injEq] at h
    rw [← h]
    have hl : (P ++ [0x80] ++ List.replicate (55 - P.length) 0).length = 56 := by
      simp; omega
    exact List.drop_left' hl
  · rw [if_neg hc] at h
    simp only [List.getLast?_cons_cons, List.getLast?_singleton, Option.some.injEq] at h
    rw [← h]
    have hl : (List.replicate 56 (0 : Nat)).length = 56 := by simp
    exact List.drop_left' hl

theorem sm3_done_into_of_WF {s : sm3_hash_t} (hwf : s.WF) (hs : s.cur_len < 64)
    (hash0 : List Nat) (hh : hash0.length = 32) :
    ∃ s', sm3_done_into s hash0 = some (s', Spec.serialize s'.iv) ∧ s'.WF ∧
      s'.iv = (doneBlocks (s.buf.take s.cur_len)
        (u32 (s.message_length + u32 (s.cur_len * 8)))).foldl Spec.CF s.iv ∧
      s'.message_length = u32 (s.message_length + u32 (s.cur_len * 8)) ∧
      (doneBlocks (s.buf.take s.cur_len)
        (u32 (s.message_length + u32 (s.cur_len * 8)))).getLast? = some s'.buf ∧
      s'.buf.length = 64 ∧ s'.cur_len = 64 := by
  have hlen : (s.buf.take s.cur_len).length = s.cur_len := by
    rw [List.length_take, hwf.2.2.2.1]; omega
  obtain ⟨s', B, e, h, hlast, hB⟩ :=
    sm3_done_into_holds (holds_of_WF hwf (by omega)) (by omega) hash0 hh
  rw [hlen] at e h hlast
  have hbuf : s'.buf = B := by
    have := h.pend_eq
    rw [hB, ← h.wf.2.2.2.1, List.take_length] at this
    exact this
  refine ⟨s', ?_, h.wf, h.iv_eq, h.ml_eq, ?_, h.wf.2.2.2.1, by rw [h.len_eq, hB]⟩
  · rw [e, h.iv_eq]
  · rw [hlast, hbuf]

theorem serialize_word {V : List Nat} (hV : V.length = 8) {i : Nat} (hi : i < 8) :
    [(Spec.serialize V).getD (4 * i) 0, (Spec.serialize V).getD (4 * i + 1) 0,
     (Spec.serialize V).getD (4 * i + 2) 0, (Spec.serialize V).getD (4 * i + 3) 0] =
      Spec.be32 (V.getD i 0) := by
  obtain ⟨a, b, c, d, e, f, g, k, rfl⟩ := length_eight hV
  interval_cases i <;> rfl

theorem be32_decode {x : Nat} (hx : x < 4294967296) :
    x / 2 ^ 24 % 256 * 2 ^ 24 + x / 2 ^ 16 % 256 * 2 ^ 16 + x / 2 ^ 8 % 256 * 2 ^ 8 + x % 256
      = x := by
  simp only [Nat.reducePow]
  omega

theorem wordsOfBytes_serialize {V : List Nat} (hV : V.length = 8)
    (hb : ∀ x ∈ V, x < 4294967296) : Spec.wordsOfBytes (Spec.serialize V) = V := by
  obtain ⟨a, b, c, d, e, f, g, k, rfl⟩ := length_eight hV
  simp only [List.mem_cons, List.mem_singleton, forall_eq_or_imp, forall_eq] at hb
  obtain ⟨h1, h2, h3, h4, h5, h6, h7, h8, _⟩ := hb
  show [_, _, _, _, _, _, _, _] = _
  rw [be32_decode h1, be32_decode h2, be32_decode h3, be32_decode h4, be32_decode h5,
    be32_decode h6, be32_decode h7, be32_decode h8]

/-- C8: digest serialisation. For every state with `cur_len < 64`, `sm3_done`
writes exactly the 32 bytes of `hash` (whatever they held), and for each
`i` in `0..7` the bytes `hash[4i..4i+3]` are the big-endian encoding of the
register `iv[i]` as the call leaves it, that is after its last compression;
decoding the output as eight big-endian words returns those registers. -/
theorem C8_digest_serialization (s : sm3_hash_t) (hash0 : List Nat) (hwf : s.WF)
    (hs : s.cur_len < 64) (hh : hash0.length = 32) :
    ∃ s' hash, sm3_done_into s hash0 = some (s', hash) ∧ hash.length = 32 ∧
      s'.iv = (doneBlocks (s.buf.take s.cur_len)
        (u32 (s.message_length + u32 (s.cur_len * 8)))).foldl Spec.CF s.iv ∧
      hash = Spec.serialize s'.iv ∧
      (∀ i, i < 8 →
        [hash.getD (4 * i) 0, hash.getD (4 * i + 1) 0, hash.getD (4 * i + 2) 0,
         hash.getD (4 * i + 3) 0] = Spec.be32 (s'.iv.getD i 0)) ∧
      Spec.wordsOfBytes hash = s'.iv := by
  obtain ⟨s', e, hwf', hiv, _⟩ := sm3_done_into_of_WF hwf hs hash0 hh
  exact ⟨s', _, e, serialize_length hwf'.1, hiv, rfl, fun i hi => serialize_word hwf'.1 hi,
    wordsOfBytes_serialize hwf'.1 hwf'.2.1⟩

/-- C8 at a concrete input: the fresh state and an output array of stale bytes. -/
theorem C8_digest_serialization_witness :
    (sm3_init stale).WF ∧ (sm3_init stale).cur_len < 64 ∧
    (List.replicate 32 0xaa).length = 32 ∧
    ∃ s' hash, sm3_done_into (sm3_init stale) (List.replicate 32 0xaa) = some (s', hash) ∧
      hash.length = 32 ∧ hash = Spec.serialize s'.iv ∧ Spec.wordsOfBytes hash = s'.iv :=
  ⟨by decide, by decide, by decide,
   match C8_digest_serialization (sm3_init stale) (List.replicate 32 0xaa) (by decide)
      (by decide) (by decide) with
   | ⟨s', hash, e, hl, _, hser, _, hdec⟩ => ⟨s', hash, e, hl, hser, hdec⟩⟩

theorem sm3_process_calls_fresh (prior : sm3_hash_t) {chunks : List (List Nat)}
    (hc : ∀ c ∈ chunks, c.length < 4294967296 ∧ isBytes c) :
    ∃ s1, sm3_process_calls (sm3_init prior) chunks = some s1 ∧ s1.WF ∧
      s1.cur_len = chunks.flatten.length % 64 ∧
      s1.message_length = (512 * (chunks.flatten.length / 64)) % 4294967296 := by
  obtain ⟨s1, e, hwf, hlen, hml, _⟩ :=
    sm3_digest_eq prior (isBytes_flatten (fun c h => (hc c h).2))
  exact ⟨s1, by rw [sm3_process_calls_eq]; exact e, hwf, hlen, hml⟩

theorem be32_eq_zero {y : Nat} (hy : y < 4294967296) :
    Spec.be32 y = [0, 0, 0, 0] ↔ y = 0 := by
  unfold Spec.be32
  simp only [Nat.reducePow, List.cons.injEq, and_true]
  omega

theorem be64_eq_iff {x : Nat} (hx : x < 2 ^ 64) :
    [0, 0, 0, 0] ++ Spec.be32 (x % 4294967296) = Spec.be64 x ↔ x < 4294967296 := by
  unfold Spec.be64
  have hy : x / 2 ^ 32 % 2 ^ 32 < 4294967296 := Nat.mod_lt _ (by decide)
  have hlen : ([0, 0, 0, 0] : List Nat).length = (Spec.be32 (x / 2 ^ 32 % 2 ^ 32)).length := rfl
  constructor
  · intro h
    have h1 := (List.append_inj h hlen).1
    have h2 := (be32_eq_zero hy).mp h1.symm
    simp only [Nat.reducePow] at h2 hx
    omega
  · intro h
    have h2 : x / 2 ^ 32 % 2 ^ 32 = 0 := by
      simp only [Nat.reducePow]; omega
    rw [h2]
    rfl

/-- C9: length field at finalisation. For every state with `cur_len = p < 64`
and counter `c`, the last block `sm3_done` compresses (it stays in the buffer)
has bytes 56..59 zero and bytes 60..63 the big-endian encoding of
`(c + 8p) mod 2^32`. Hence for an `n`-byte message absorbed from the fresh
state the field encodes `8n mod 2^32` under four zero bytes, which is the
64-bit big-endian bit length exactly when `8n < 2^32`. -/
theorem C9_length_field (s : sm3_hash_t) (hwf : s.WF) (hs : s.cur_len < 64) :
    (∃ s' hash, sm3_done s = some (s', hash) ∧
      s'.iv = (doneBlocks (s.buf.take s.cur_len)
        (u32 (s.message_length + u32 (s.cur_len * 8)))).foldl Spec.CF s.iv ∧
      (doneBlocks (s.buf.take s.cur_len)
        (u32 (s.message_length + u32 (s.cur_len * 8)))).getLast? = some s'.buf ∧
      s'.buf.length = 64 ∧
      s'.buf.drop 56 =
        [0, 0, 0, 0] ++ Spec.be32 ((s.message_length + 8 * s.cur_len) % 4294967296)) ∧
    (∀ (prior : sm3_hash_t) (chunks : List (List Nat)),
      (∀ c ∈ chunks, c.length < 4294967296 ∧ isBytes c) →
      ∃ s1 s2 hash, sm3_process_calls (sm3_init prior) chunks = some s1 ∧
        sm3_done s1 = some (s2, hash) ∧
        s2.buf.drop 56 =
          [0, 0, 0, 0] ++ Spec.be32 ((8 * chunks.flatten.length) % 4294967296) ∧
        (8 * chunks.flatten.length < 2 ^ 64 →
          (s2.buf.drop 56 = Spec.be64 (8 * chunks.flatten.length) ↔
            8 * chunks.flatten.length < 4294967296))) := by
  have key : ∀ t : sm3_hash_t, t.WF → t.cur_len < 64 →
      ∃ s' hash, sm3_done t = some (s', hash) ∧
      s'.iv = (doneBlocks (t.buf.take t.cur_len)
        (u32 (t.message_length + u32 (t.cur_len * 8)))).foldl Spec.CF t.iv ∧
      (doneBlocks (t.buf.take t.cur_len)
        (u32 (t.message_length + u32 (t.cur_len * 8)))).getLast? = some s'.buf ∧
      s'.buf.length = 64 ∧
      s'.buf.drop 56 =
        [0, 0, 0, 0] ++ Spec.be32 ((t.message_length + 8 * t.cur_len) % 4294967296) := by
    intro t ht hc
    obtain ⟨s', e, _, hiv, _, hlast, hlen, _⟩ :=
      sm3_done_into_of_WF ht hc (List.replicate 32 0) (by simp)
    have hL : u32 (t.message_length + u32 (t.cur_len * 8)) =
        (t.message_length + 8 * t.cur_len) % 4294967296 := by
      unfold u32; omega
    have hd := doneBlocks_last (by rw [List.length_take, ht.2.2.2.1]; omega) _ hlast
    rw [hL] at hd
    exact ⟨s', _, e, hiv, hlast, hlen, hd⟩
  refine ⟨key s hwf hs, ?_⟩
  intro prior chunks hc
  obtain ⟨s1, e1, hwf1, hlen1, hml1⟩ := sm3_process_calls_fresh prior hc
  obtain ⟨s2, hash, e2, _, _, _, hd⟩ := key s1 hwf1 (by rw [hlen1]; omega)
  have hL : (s1.message_length + 8 * s1.cur_len) % 4294967296 =
      (8 * chunks.flatten.length) % 4294967296 := by
    rw [hlen1, hml1]; omega
  rw [hL] at hd
  refine ⟨s1, s2, hash, e1, e2, hd, ?_⟩
  intro h64
  rw [hd]
  exact be64_eq_iff h64

/-- C9 at a concrete input: the state `main` finalises, after the demo bytes. -/
theorem C9_length_field_witness :
    (sm3_init stale).WF ∧ (sm3_init stale).cur_len < 64 ∧
    (∃ s' hash, sm3_done (sm3_init stale) = some (s', hash) ∧ s'.buf.length = 64 ∧
      s'.buf.drop 56 = [0, 0, 0, 0] ++ Spec.be32
        (((sm3_init stale).message_length + 8 * (sm3_init stale).cur_len) % 4294967296)) ∧
    (∃ s1 s2 hash, sm3_process_calls (sm3_init stale) [test_data] = some s1 ∧
      sm3_done s1 = some (s2, hash) ∧
      s2.buf.drop 56 = [0, 0, 0, 0] ++ Spec.be32
        ((8 * [test_data].flatten.length) % 4294967296)) :=
  ⟨by decide, by decide,
   match (C9_length_field (sm3_init stale) (by decide) (by decide)).1 with
   | ⟨s', hash, e, _, _, hl, hd⟩ => ⟨s', hash, e, hl, hd⟩,
   match (C9_length_field (sm3_init stale) (by decide) (by decide)).2 stale [test_data]
      (by decide) with
   | ⟨s1, s2, hash, e1, e2, hd, _⟩ => ⟨s1, s2, hash, e1, e2, hd⟩⟩

theorem isBytes_replicate_zero (n : Nat) : isBytes (List.replicate n 0) := by
  intro x hx
  rw [List.eq_of_mem_replicate hx]
  decide

/-- C10, as amended: for a message of `n` bytes absorbed into the fresh state
over any sequence of `sm3_process` calls, `message_length` is
`(512 * floor(n / 64)) mod 2^32` after the absorption and `(8 n) mod 2^32` after
`sm3_done`; both calls return normally, and the counter is the exact number of
bits accounted so far whenever `8 n < 2^32`. -/
theorem C10_bit_counter_mod (prior : sm3_hash_t) (chunks : List (List Nat))
    (hc : ∀ c ∈ chunks, c.length < 4294967296 ∧ isBytes c) :
    ∃ s1 s2 hash, sm3_process_calls (sm3_init prior) chunks = some s1 ∧
      s1.cur_len = chunks.flatten.length % 64 ∧
      s1.message_length = (512 * (chunks.flatten.length / 64)) % 4294967296 ∧
      sm3_done s1 = some (s2, hash) ∧
      s2.message_length = (8 * chunks.flatten.length) % 4294967296 ∧
      (8 * chunks.flatten.length < 4294967296 →
        s1.message_length = 512 * (chunks.flatten.length / 64) ∧
        s2.message_length = 8 * chunks.flatten.length) := by
  obtain ⟨s1, e1, hwf1, hlen1, hml1⟩ := sm3_process_calls_fresh prior hc
  obtain ⟨s2, e2, _, _, hml2, _⟩ :=
    sm3_done_into_of_WF hwf1 (by rw [hlen1]; omega) (List.replicate 32 0) (by simp)
  have hL : s2.message_length = (8 * chunks.flatten.length) % 4294967296 := by
    rw [hml2, hlen1, hml1]; unfold u32; omega
  refine ⟨s1, s2, _, e1, hlen1, hml1, e2, hL, ?_⟩
  intro h
  rw [hml1, hL]
  omega

/-- C10 at a concrete input: the demo bytes in two calls of three bytes. -/
theorem C10_bit_counter_mod_witness :
    (∀ c ∈ [[1, 2, 3], [4, 5, 6]], c.length < 4294967296 ∧ isBytes c) ∧
    ∃ s1 s2 hash, sm3_process_calls (sm3_init stale) [[1, 2, 3], [4, 5, 6]] = some s1 ∧
      s1.message_length = (512 * ([[1, 2, 3], [4, 5, 6]].flatten.length / 64)) % 4294967296 ∧
      sm3_done s1 = some (s2, hash) ∧
      s2.message_length = (8 * [[1, 2, 3], [4, 5, 6]].flatten.length) % 4294967296 :=
  ⟨by decide,
   match C10_bit_counter_mod stale [[1, 2, 3], [4, 5, 6]] (by decide) with
   | ⟨s1, s2, hash, e1, _, h1, e2, h2, _⟩ => ⟨s1, s2, hash, e1, h1, e2, h2⟩⟩

/-- C10 as stated fails: after one `sm3_process` call on `2^29` zero bytes from
the fresh state, `2^32` bits are accounted for and `message_length` is 0; the
call returns normally. -/
theorem C10_counterexample :
    (List.replicate 536870912 0).length < 4294967296 ∧
    512 * ((List.replicate 536870912 0).length / 64) = 4294967296 ∧
    (sm3_process (sm3_init stale) (List.replicate 536870912 0)).map
        sm3_hash_t.message_length = some 0 ∧
    ¬ ((sm3_process (sm3_init stale) (List.replicate 536870912 0)).map
        sm3_hash_t.message_length =
      some (512 * ((List.replicate 536870912 0).length / 64))) := by
  obtain ⟨s1, e, _, _, hml, _⟩ :=
    sm3_digest_eq stale (isBytes_replicate_zero 536870912)
  rw [List.length_replicate] at hml ⊢
  have h0 : u32 (512 * (536870912 / 64)) = 0 := by decide
  rw [h0] at hml
  refine ⟨by decide, by decide, ?_, ?_⟩
  · rw [e, Option.map_some', hml]
  · rw [e, Option.map_some', hml]
    decide

/-- C11: absorption bookkeeping. For every byte sequence of `n` bytes absorbed
from the fresh state, in any chunking, the resulting state has
`cur_len = n mod 64`, `message_length = (512 * floor(n / 64)) mod 2^32`, the
first `cur_len` bytes of `buf` equal to the last `n mod 64` bytes of the message,
and `iv` equal to the compression function folded from the IV over the first
`floor(n / 64)` complete 64-byte blocks of the message. -/
theorem C11_absorption_bookkeeping (prior : sm3_hash_t) (chunks : List (List Nat))
    (hc : ∀ c ∈ chunks, c.length < 4294967296 ∧ isBytes c) :
    ∃ s1, sm3_process_calls (sm3_init prior) chunks = some s1 ∧
      s1.cur_len = chunks.flatten.length % 64 ∧
      s1.message_length = (512 * (chunks.flatten.length / 64)) % 4294967296 ∧
      s1.buf.take s1.cur_len =
        chunks.flatten.drop (chunks.flatten.length - chunks.flatten.length % 64) ∧
      s1.iv = (Spec.blocks (chunks.flatten.length / 64) chunks.flatten).foldl Spec.CF Spec.IV := by
  obtain ⟨s1, e1, h1⟩ := sm3_process_holds chunks.flatten (holds_init prior) (by simp)
    (isBytes_flatten (fun c h => (hc c h).2))
  simp only [List.length_nil, Nat.zero_add, List.nil_append] at h1
  have hd : 64 * (chunks.flatten.length / 64) =
      chunks.flatten.length - chunks.flatten.length % 64 := by omega
  have hP : (chunks.flatten.drop (64 * (chunks.flatten.length / 64))).length =
      chunks.flatten.length % 64 := by
    rw [List.length_drop]; omega
  refine ⟨s1, by rw [sm3_process_calls_eq]; exact e1, by rw [h1.len_eq, hP], h1.ml_eq, ?_,
    h1.iv_eq⟩
  rw [← hd, h1.len_eq]
  exact h1.pend_eq

/-- C11 at a concrete input: the demo bytes absorbed in two calls. -/
theorem C11_absorption_bookkeeping_witness :
    (∀ c ∈ [[1, 2, 3], [4, 5, 6]], c.length < 4294967296 ∧ isBytes c) ∧
    ∃ s1, sm3_process_calls (sm3_init stale) [[1, 2, 3], [4, 5, 6]] = some s1 ∧
      s1.cur_len = 6 ∧ s1.message_length = 0 ∧ s1.buf.take s1.cur_len = [1, 2, 3, 4, 5, 6] ∧
      s1.iv = Spec.IV :=
  ⟨by decide,
   match C11_absorption_bookkeeping stale [[1, 2, 3], [4, 5, 6]] (by decide) with
   | ⟨s1, e, h1, h2, h3, h4⟩ => ⟨s1, e, h1, h2, h3, h4⟩⟩

/-- C13: determinism from a fresh state. `sm3_init` yields the same state
whatever the object held before, so for two objects with arbitrary prior
contents and one byte sequence (in one call or split into calls), `sm3_init`,
`sm3_process`, `sm3_done` produce the same 32-byte output. -/
theorem C13_determinism (prior1 prior2 : sm3_hash_t) (m : List Nat) (hm : isBytes m)
    (_hlen : m.length < 4294967296) :
    sm3_init prior1 = sm3_init prior2 ∧
    (∃ d, d.length = 32 ∧ sm3_digest prior1 m = some d ∧ sm3_digest prior2 m = some d) ∧
    (∀ chunks : List (List Nat), (∀ c ∈ chunks, c.length < 4294967296 ∧ isBytes c) →
      ∃ d, d.length = 32 ∧ sm3_digest_calls prior1 chunks = some d ∧
        sm3_digest_calls prior2 chunks = some d) := by
  have key : ∀ l : List Nat, isBytes l →
      ∃ d, d.length = 32 ∧ sm3_digest prior1 l = some d ∧ sm3_digest prior2 l = some d := by
    intro l hl
    obtain ⟨_, _, _, _, _, hd⟩ := sm3_digest_eq prior1 hl
    exact ⟨_, serialize_length (foldl_CF_length (show Spec.IV.length = 8 from rfl) _), hd, hd⟩
  refine ⟨rfl, key m hm, ?_⟩
  intro chunks hc
  obtain ⟨d, hl, h1, h2⟩ := key chunks.flatten (isBytes_flatten (fun c h => (hc c h).2))
  have e : ∀ p : sm3_hash_t, sm3_digest_calls p chunks = sm3_digest p chunks.flatten := by
    intro p
    unfold sm3_digest_calls
    rw [sm3_process_calls_eq]
    rfl
  exact ⟨d, hl, (e prior1).trans h1, (e prior2).trans h2⟩

/-- C13 at a concrete input: the demo bytes, from a stale object and from the
fresh state itself as prior contents. -/
theorem C13_determinism_witness :
    isBytes test_data ∧ test_data.length < 4294967296 ∧
    sm3_init stale = sm3_init (sm3_init stale) ∧
    (∃ d, d.length = 32 ∧ sm3_digest stale test_data = some d ∧
      sm3_digest (sm3_init stale) test_data = some d) :=
  ⟨by decide, by decide,
   (C13_determinism stale (sm3_init stale) test_data (by decide) (by decide)).1,
   (C13_determinism stale (sm3_init stale) test_data (by decide) (by decide)).2.1⟩

/-- C19: finalisation breaks the pending-length invariant. For every state
with `cur_len < 64`, the state `sm3_done` leaves behind has `cur_len = 64`, so
`cur_len < 64` no longer holds, and the first byte store of a following
non-empty `sm3_process` is at index 64 of the 64-byte buffer, out of bounds. -/
theorem C19_done_leaves_full (s : sm3_hash_t) (hwf : s.WF) (hs : s.cur_len < 64) :
    ∃ s' hash, sm3_done s = some (s', hash) ∧ s'.cur_len = 64 ∧ ¬ s'.cur_len < 64 ∧
      s'.buf.length = 64 ∧
      (∀ byte : Nat, wr s'.buf s'.cur_len byte = none) ∧
      (∀ (byte : Nat) (rest : List Nat), sm3_process s' (byte :: rest) = none) := by
  obtain ⟨s', e, _, _, _, _, hlen, hc⟩ :=
    sm3_done_into_of_WF hwf hs (List.replicate 32 0) (by simp)
  have hw : ∀ byte : Nat, wr s'.buf s'.cur_len byte = none := by
    intro byte
    unfold wr
    rw [hc, hlen, if_neg (by omega)]
  refine ⟨s', _, e, hc, by omega, hlen, hw, ?_⟩
  intro byte rest
  simp only [sm3_process, sm3_process_byte, hw, Option.bind_eq_bind, Option.none_bind]

/-- C19 at a concrete input: the fresh state, finalised and used again. -/
theorem C19_done_leaves_full_witness :
    (sm3_init stale).WF ∧ (sm3_init stale).cur_len < 64 ∧
    ∃ s' hash, sm3_done (sm3_init stale) = some (s', hash) ∧ s'.cur_len = 64 ∧
      sm3_process s' test_data = none :=
  ⟨by decide, by decide,
   match C19_done_leaves_full (sm3_init stale) (by decide) (by decide) with
   | ⟨s', hash, e, hc, _, _, _, hp⟩ => ⟨s', hash, e, hc, hp 1 [2, 3, 4, 5, 6]⟩⟩

/-- C20: stale buffer bytes do not influence the digest. Two states that agree
on `iv`, `message_length`, `cur_len = p < 64` and on the first `p` bytes of
`buf`, and differ arbitrarily on the other bytes of `buf`, get the same 32-byte
digest from `sm3_done`. -/
theorem C20_stale_bytes (s1 s2 : sm3_hash_t) (h1 : s1.WF) (h2 : s2.WF)
    (hiv : s1.iv = s2.iv) (hml : s1.message_length = s2.message_length)
    (hlen : s1.cur_len = s2.cur_len) (hp : s1.cur_len < 64)
    (hbuf : s1.buf.take s1.cur_len = s2.buf.take s2.cur_len) :
    ∃ d, d.length = 32 ∧ (sm3_done s1).map Prod.snd = some d ∧
      (sm3_done s2).map Prod.snd = some d := by
  obtain ⟨t1, e1, w1, i1, _⟩ := sm3_done_into_of_WF h1 hp (List.replicate 32 0) (by simp)
  obtain ⟨t2, e2, _, i2, _⟩ :=
    sm3_done_into_of_WF h2 (by rw [← hlen]; exact hp) (List.replicate 32 0) (by simp)
  have hi : t2.iv = t1.iv := by rw [i1, i2, hbuf, hml, hlen, hiv]
  refine ⟨Spec.serialize t1.iv, serialize_length w1.1, ?_, ?_⟩
  · unfold sm3_done; rw [e1]; rfl
  · unfold sm3_done; rw [e2, hi]; rfl

/-- C20 at a concrete input: three pending bytes, the rest of the buffer all
`0xaa` in one state and all `0x55` in the other. -/
theorem C20_stale_bytes_witness :
    ∃ d, d.length = 32 ∧
      (sm3_done { iv := Spec.IV, message_length := 0,
                  buf := [1, 2, 3] ++ List.replicate 61 0xaa, cur_len := 3 }).map Prod.snd
        = some d ∧
      (sm3_done { iv := Spec.IV, message_length := 0,
                  buf := [1, 2, 3] ++ List.replicate 61 0x55, cur_len := 3 }).map Prod.snd
        = some d :=
  C20_stale_bytes
    { iv := Spec.IV, message_length := 0, buf := [1, 2, 3] ++ List.replicate 61 0xaa,
      cur_len := 3 }
    { iv := Spec.IV, message_length := 0, buf := [1, 2, 3] ++ List.replicate 61 0x55,
      cur_len := 3 }
    (by decide) (by decide) rfl rfl rfl (by decide) (by decide)

/-! ## The schedules word by word -/

theorem be_word_or {a b c d : Nat} (hb : b < 256) (hc : c < 256) (hd : d < 256) :
    a * 2 ^ 24 + b * 2 ^ 16 + c * 2 ^ 8 + d =
      (((a <<< 24) ||| (b <<< 16)) ||| (c <<< 8)) ||| d := by
  have e1 : 2 ^ 8 * c + d = 2 ^ 8 * c ||| d := Nat.mul_add_lt_is_or (by simpa using hd) c
  have e2 : 2 ^ 16 * b + (2 ^ 8 * c + d) = 2 ^ 16 * b ||| (2 ^ 8 * c + d) :=
    Nat.mul_add_lt_is_or (by simp only [Nat.reducePow]; omega) b
  have e3 : 2 ^ 24 * a + (2 ^ 16 * b + (2 ^ 8 * c + d)) =
      2 ^ 24 * a ||| (2 ^ 16 * b + (2 ^ 8 * c + d)) :=
    Nat.mul_add_lt_is_or (by simp only [Nat.reducePow]; omega) a
  have s1 : a <<< 24 = 2 ^ 24 * a := by rw [Nat.shiftLeft_eq, Nat.mul_comm]
  have s2 : b <<< 16 = 2 ^ 16 * b := by rw [Nat.shiftLeft_eq, Nat.mul_comm]
  have s3 : c <<< 8 = 2 ^ 8 * c := by rw [Nat.shiftLeft_eq, Nat.mul_comm]
  rw [s1, s2, s3, Nat.or_assoc, Nat.or_assoc, ← e1, ← e2, ← e3]
  simp only [Nat.reducePow]
  omega

theorem Wupto_getD_stable (b : List Nat) {n m i : Nat} (hnm : n ≤ m) (hi : i < 16 + n) :
    (Spec.Wupto b m).getD i 0 = (Spec.Wupto b n).getD i 0 := by
  induction m with
  | zero =>
    have : n = 0 := by omega
    rw [this]
  | succ m ih =>
    by_cases h : n = m + 1
    · rw [h]
    · have hl : i < (Spec.Wupto b m).length := by rw [Wupto_length]; omega
      show (Spec.Wupto b m ++ [Spec.Wnext (Spec.Wupto b m)]).getD i 0 = _
      rw [List.getD_append _ _ _ _ hl]
      exact ih (by omega)

theorem Wupto_getD_load (b : List Nat) (n : Nat) {j : Nat} (hj : j < 16) :
    (Spec.Wupto b n).getD j 0 = Spec.wordBE b j := by
  rw [Wupto_getD_stable b (Nat.zero_le n) (by omega)]
  have hl : j < ((List.range 16).map (Spec.wordBE b)).length := by simp; omega
  show ((List.range 16).map (Spec.wordBE b)).getD j 0 = _
  rw [List.getD_eq_getElem _ _ hl]
  simp

theorem Wupto_getD_ext (b : List Nat) (n : Nat) {j : Nat} (hj : 16 ≤ j) (hjn : j < 16 + n) :
    (Spec.Wupto b n).getD j 0 =
      Spec.P1 ((Spec.Wupto b n).getD (j - 16) 0 ^^^ (Spec.Wupto b n).getD (j - 9) 0 ^^^
          Spec.rotl ((Spec.Wupto b n).getD (j - 3) 0) 15) ^^^
        Spec.rotl ((Spec.Wupto b n).getD (j - 13) 0) 7 ^^^ (Spec.Wupto b n).getD (j - 6) 0 := by
  have hk : ∀ i, i < j → (Spec.Wupto b n).getD i 0 = (Spec.Wupto b (j - 16)).getD i 0 :=
    fun i hi => Wupto_getD_stable b (by omega) (by omega)
  rw [hk (j - 16) (by omega), hk (j - 9) (by omega), hk (j - 3) (by omega),
    hk (j - 13) (by omega), hk (j - 6) (by omega),
    Wupto_getD_stable b (show j - 16 + 1 ≤ n by omega) (show j < 16 + (j - 16 + 1) by omega)]
  have hl : (Spec.Wupto b (j - 16)).length = j := by rw [Wupto_length]; omega
  show (Spec.Wupto b (j - 16) ++ [Spec.Wnext (Spec.Wupto b (j - 16))]).getD j 0 = _
  rw [List.getD_append_right _ _ _ _ (by omega), hl, Nat.sub_self]
  simp only [Spec.Wnext, hl]
  rfl

theorem W'_getD (w : List Nat) {j : Nat} (hj : j < 64) :
    (Spec.W' w).getD j 0 = w.getD j 0 ^^^ w.getD (j + 4) 0 := by
  have hl : j < (Spec.W' w).length := by rw [W'_length]; exact hj
  rw [List.getD_eq_getElem _ _ hl]
  simp [Spec.W']

/-- C14: message expansion. For every 64-byte block `b`, `msg_expand_B1_W`
yields the 68 words with `W[j]` the big-endian word of `b[4j..4j+3]` (a sum,
equal to the bitwise OR of the shifted bytes) for `j = 0..15` and
`W[j] = P1(W[j-16] XOR W[j-9] XOR rotl(W[j-3],15)) XOR rotl(W[j-13],7) XOR W[j-6]`
for `j = 16..67`, with `P1(x) = x XOR rotl(x,15) XOR rotl(x,23)`; and
`msg_expand_W_W1` yields `W'[j] = W[j] XOR W[j+4]` for `j = 0..63`. -/
theorem C14_message_expansion (b w w1 : List Nat) (hb : b.length = 64) (hbytes : isBytes b)
    (hw : w.length = 68) (hw1 : w1.length = 64) :
    ∃ W W1, msg_expand_B1_W b w = some W ∧ msg_expand_W_W1 W w1 = some W1 ∧
      W.length = 68 ∧ W1.length = 64 ∧
      (∀ j, j < 16 →
        W.getD j 0 = b.getD (4 * j) 0 * 2 ^ 24 + b.getD (4 * j + 1) 0 * 2 ^ 16 +
          b.getD (4 * j + 2) 0 * 2 ^ 8 + b.getD (4 * j + 3) 0 ∧
        W.getD j 0 = (((b.getD (4 * j) 0 <<< 24) ||| (b.getD (4 * j + 1) 0 <<< 16)) |||
          (b.getD (4 * j + 2) 0 <<< 8)) ||| b.getD (4 * j + 3) 0) ∧
      (∀ j, 16 ≤ j → j < 68 →
        W.getD j 0 =
          Spec.P1 (W.getD (j - 16) 0 ^^^ W.getD (j - 9) 0 ^^^ Spec.rotl (W.getD (j - 3) 0) 15)
            ^^^ Spec.rotl (W.getD (j - 13) 0) 7 ^^^ W.getD (j - 6) 0) ∧
      (∀ j, j < 64 → W1.getD j 0 = W.getD j 0 ^^^ W.getD (j + 4) 0) ∧
      (∀ x, Spec.P1 x = x ^^^ Spec.rotl x 15 ^^^ Spec.rotl x 23) := by
  refine ⟨Spec.W b, Spec.W' (Spec.W b), msg_expand_B1_W_eq hb hbytes hw,
    msg_expand_W_W1_eq (W_length b) hw1, W_length b, W'_length _, ?_, ?_, ?_, fun _ => rfl⟩
  · intro j hj
    have e : (Spec.W b).getD j 0 = Spec.wordBE b j := Wupto_getD_load b 52 hj
    refine ⟨e, ?_⟩
    rw [e]
    exact be_word_or (getD_lt_of_forall hbytes (by decide) _)
      (getD_lt_of_forall hbytes (by decide) _) (getD_lt_of_forall hbytes (by decide) _)
  · intro j hj hj'
    exact Wupto_getD_ext b 52 hj (by omega)
  · intro j hj
    exact W'_getD _ hj

/-- C14 at a concrete input: the block of the bytes `0, 1, ..., 63`, into arrays
that hold stale words. -/
theorem C14_message_expansion_witness :
    (List.range 64).length = 64 ∧ isBytes (List.range 64) ∧
    ∃ W W1, msg_expand_B1_W (List.range 64) (List.replicate 68 0xdeadbeef) = some W ∧
      msg_expand_W_W1 W (List.replicate 64 0xdeadbeef) = some W1 ∧
      W.getD 0 0 = 0x00010203 ∧ W.getD 15 0 = 0x3c3d3e3f ∧
      W1.getD 0 0 = W.getD 0 0 ^^^ W.getD 4 0 :=
  ⟨by decide, by decide,
   match C14_message_expansion (List.range 64) (List.replicate 68 0xdeadbeef)
      (List.replicate 64 0xdeadbeef) (by decide) (by decide) (by decide) (by decide) with
   | ⟨W, W1, e1, e2, _, _, h1, _, h3, _⟩ =>
     ⟨W, W1, e1, e2, ((h1 0 (by decide)).1).trans (by decide),
      ((h1 15 (by decide)).1).trans (by decide), h3 0 (by decide)⟩⟩

/-! ## The round loop of `cf`, round by round -/

theorem cf_load_eq {V : List Nat} (hV : V.length = 8) :
    cf_load V = some { A := V.getD 0 0, B := V.getD 1 0, C := V.getD 2 0, D := V.getD 3 0,
                       E := V.getD 4 0, F := V.getD 5 0, G := V.getD 6 0, H := V.getD 7 0,
                       Tjj := T00_15 } := by
  obtain ⟨a, b, c, d, e, f, g, k, rfl⟩ := length_eight hV
  simp [cf_load, rd]

theorem regsOf_bounded {V : List Nat} (hVb : ∀ x ∈ V, x < 4294967296) :
    (Spec.regsOf V).Bounded := by
  have g := fun i => getD_lt_of_forall hVb (by decide) i
  exact ⟨g 0, g 1, g 2, g 3, g 4, g 5, g 6, g 7⟩

theorem cf_loop_eq {W W1 : List Nat} (hW : W.length = 68) (hW1 : W1.length = 64)
    (r0 : cf_locals) (hb : r0.regs.Bounded) (hT : r0.Tjj = T00_15) (k : Nat) (hk : k ≤ 64) :
    ∃ r, forLoop (cf_round W W1) k 0 r0 = some r ∧
      r.regs = Spec.rounds W W1 k r0.regs ∧ r.Tjj = cf_TjjAt k := by
  obtain ⟨r, hr, hregs, hTjj⟩ := forLoop_inv (cf_round W W1)
    (fun j r => r.regs = Spec.rounds W W1 j r0.regs ∧ r.Tjj = cf_TjjAt j) k 0 r0
    ⟨rfl, hT⟩
    (by
      intro j r _ hj hP
      obtain ⟨r', h1, h2, h3⟩ := cf_round_eq hW hW1 (show j < 64 by omega)
        (by rw [hP.1]; exact rounds_bounded W W1 j hb) hP.2
      exact ⟨r', h1, by rw [h2, hP.1]; rfl, h3⟩)
  rw [Nat.zero_add] at hregs hTjj
  exact ⟨r, hr, hregs, hTjj⟩

/-- C15: compression function. For every register vector `V` and schedules `W`
(68 words) and `W'` (64 words), `cf` sets `V[i]` to `V[i] XOR X_i`, where `X` is
the result of the 64 rounds of the specification iterated from `(A..H) = V`:
`SS1 = rotl(rotl(A,12) + E + Tj, 7)`, `SS2 = SS1 XOR rotl(A,12)`,
`TT1 = FF_j(A,B,C) + D + SS2 + W'[j]`, `TT2 = GG_j(E,F,G) + H + SS1 + W[j]`
modulo `2^32`, then the register shift with `P0(x) = x XOR rotl(x,9) XOR rotl(x,17)`,
with `FF_j`, `GG_j` the XOR for `j ≤ 15` and the majority and the choice functions
for `j ≥ 16`. -/
theorem C15_compression (V W W1 : List Nat) (hV : V.length = 8)
    (hVb : ∀ x ∈ V, x < 4294967296) (hW : W.length = 68) (hW1 : W1.length = 64) :
    cf V W W1 = some
      [V.getD 0 0 ^^^ (Spec.rounds W W1 64 (Spec.regsOf V)).A,
       V.getD 1 0 ^^^ (Spec.rounds W W1 64 (Spec.regsOf V)).B,
       V.getD 2 0 ^^^ (Spec.rounds W W1 64 (Spec.regsOf V)).C,
       V.getD 3 0 ^^^ (Spec.rounds W W1 64 (Spec.regsOf V)).D,
       V.getD 4 0 ^^^ (Spec.rounds W W1 64 (Spec.regsOf V)).E,
       V.getD 5 0 ^^^ (Spec.rounds W W1 64 (Spec.regsOf V)).F,
       V.getD 6 0 ^^^ (Spec.rounds W W1 64 (Spec.regsOf V)).G,
       V.getD 7 0 ^^^ (Spec.rounds W W1 64 (Spec.regsOf V)).H] ∧
    (∀ r : Spec.Regs, Spec.rounds W W1 0 r = r) ∧
    (∀ (j : Nat) (r : Spec.Regs),
      Spec.rounds W W1 (j + 1) r = Spec.round W W1 j (Spec.rounds W W1 j r)) ∧
    (∀ (j : Nat) (r : Spec.Regs), Spec.round W W1 j r =
      { A := (Spec.FF j r.A r.B r.C + r.D +
              (Spec.rotl ((Spec.rotl r.A 12 + r.E + Spec.rotl (Spec.T j) (j % 32)) % 2 ^ 32) 7
                ^^^ Spec.rotl r.A 12) + W1.getD j 0) % 2 ^ 32,
        B := r.A, C := Spec.rotl r.B 9, D := r.C,
        E := Spec.P0 ((Spec.GG j r.E r.F r.G + r.H +
              Spec.rotl ((Spec.rotl r.A 12 + r.E + Spec.rotl (Spec.T j) (j % 32)) % 2 ^ 32) 7 +
              W.getD j 0) % 2 ^ 32),
        F := r.E, G := Spec.rotl r.F 19, H := r.G }) ∧
    (∀ j x y z, j ≤ 15 → Spec.FF j x y z = x ^^^ y ^^^ z ∧ Spec.GG j x y z = x ^^^ y ^^^ z) ∧
    (∀ j x y z, 16 ≤ j →
      Spec.FF j x y z = (x &&& y) ||| (x &&& z) ||| (y &&& z) ∧
      Spec.GG j x y z = (x &&& y) ||| ((0xffffffff ^^^ x) &&& z)) ∧
    (∀ x, Spec.P0 x = x ^^^ Spec.rotl x 9 ^^^ Spec.rotl x 17) := by
  refine ⟨cf_eq hV hVb hW hW1, fun _ => rfl, fun _ _ => rfl, fun _ _ => rfl, ?_, ?_,
    fun _ => rfl⟩
  · intro j x y z hj
    simp [Spec.FF, Spec.GG, hj]
  · intro j x y z hj
    have hn : ¬ j ≤ 15 := by omega
    simp [Spec.FF, Spec.GG, Spec.not32, hn]

/-- C15 at a concrete input: the IV as `V`, the schedules counting up. -/
theorem C15_compression_witness :
    Spec.IV.length = 8 ∧ (∀ x ∈ Spec.IV, x < 4294967296) ∧
    (List.range 68).length = 68 ∧ (List.range 64).length = 64 ∧
    cf Spec.IV (List.range 68) (List.range 64) = some
      [Spec.IV.getD 0 0 ^^^ (Spec.rounds (List.range 68) (List.range 64) 64
          (Spec.regsOf Spec.IV)).A,
       Spec.IV.getD 1 0 ^^^ (Spec.rounds (List.range 68) (List.range 64) 64
          (Spec.regsOf Spec.IV)).B,
       Spec.IV.getD 2 0 ^^^ (Spec.rounds (List.range 68) (List.range 64) 64
          (Spec.regsOf Spec.IV)).C,
       Spec.IV.getD 3 0 ^^^ (Spec.rounds (List.range 68) (List.range 64) 64
          (Spec.regsOf Spec.IV)).D,
       Spec.IV.getD 4 0 ^^^ (Spec.rounds (List.range 68) (List.range 64) 64
          (Spec.regsOf Spec.IV)).E,
       Spec.IV.getD 5 0 ^^^ (Spec.rounds (List.range 68) (List.range 64) 64
          (Spec.regsOf Spec.IV)).F,
       Spec.IV.getD 6 0 ^^^ (Spec.rounds (List.range 68) (List.range 64) 64
          (Spec.regsOf Spec.IV)).G,
       Spec.IV.getD 7 0 ^^^ (Spec.rounds (List.range 68) (List.range 64) 64
          (Spec.regsOf Spec.IV)).H] :=
  ⟨by decide, by decide, by decide, by decide,
   (C15_compression Spec.IV (List.range 68) (List.range 64) (by decide) (by decide)
      (by decide) (by decide)).1⟩

/-- C16: round-constant equivalence. For every round `j` in `0..63`, the running
constant `Tjj` that `cf` uses in round `j` (it starts at `0x79cc4519`, is rotated
left by 1 in each round `j > 0`, and is set to `rotl(0x7a879d8a, 16)` in round 16)
equals `rotl(T_j, j mod 32)`, with `T_j = 0x79cc4519` for `j ≤ 15` and
`T_j = 0x7a879d8a` for `j ≥ 16`; a rotation by 0 is the identity. -/
theorem C16_round_constant (V W W1 : List Nat) (j : Nat) (hV : V.length = 8)
    (hVb : ∀ x ∈ V, x < 4294967296) (hW : W.length = 68) (hW1 : W1.length = 64)
    (hj : j < 64) :
    (∃ r0 r, cf_load V = some r0 ∧ r0.Tjj = 0x79cc4519 ∧
      forLoop (cf_round W W1) j 0 r0 = some r ∧
      cf_Tjj j r.Tjj = Spec.rotl (Spec.T j) (j % 32) ∧
      ∃ r', cf_round W W1 j r = some r' ∧ r'.Tjj = Spec.rotl (Spec.T j) (j % 32)) ∧
    (∀ i, i ≤ 15 → Spec.T i = 0x79cc4519) ∧ (∀ i, 16 ≤ i → Spec.T i = 0x7a879d8a) ∧
    (∀ x, x < 4294967296 → Spec.rotl x 0 = x) ∧
    cf_Tjj 16 (cf_TjjAt 16) = Spec.rotl 0x7a879d8a 16 := by
  refine ⟨?_, ?_, ?_, ?_, by decide⟩
  · obtain ⟨r, hr, hregs, hT⟩ := cf_loop_eq hW hW1
      { A := V.getD 0 0, B := V.getD 1 0, C := V.getD 2 0, D := V.getD 3 0,
        E := V.getD 4 0, F := V.getD 5 0, G := V.getD 6 0, H := V.getD 7 0, Tjj := T00_15 }
      (regsOf_bounded hVb) rfl j (by omega)
    have hTj : cf_Tjj j r.Tjj = Spec.rotl (Spec.T j) (j % 32) := by
      rw [hT]; exact cf_Tjj_eq j hj
    obtain ⟨r', h1, _, h3⟩ := cf_round_eq hW hW1 hj
      (by rw [hregs]; exact rounds_bounded W W1 j (regsOf_bounded hVb)) hT
    exact ⟨_, r, cf_load_eq hV, rfl, hr, hTj, r', h1, by rw [h3]; exact cf_Tjj_eq j hj⟩
  · intro i hi
    simp [Spec.T, hi]
  · intro i hi
    have hn : ¬ i ≤ 15 := by omega
    simp [Spec.T, hn]
  · intro x hx
    rw [← SM3_CYCLE_LEFT_eq hx 0]
    unfold SM3_CYCLE_LEFT
    rw [u32_of_lt hx, Nat.shiftLeft_zero, u32_of_lt hx]
    have : x >>> 32 = 0 := by
      rw [Nat.shiftRight_eq_div_pow]
      exact Nat.div_eq_of_lt hx
    simp [this]

/-- C16 at a concrete input: round 40 of `cf` on the IV and counting schedules. -/
theorem C16_round_constant_witness :
    ∃ r0 r, cf_load Spec.IV = some r0 ∧ r0.Tjj = 0x79cc4519 ∧
      forLoop (cf_round (List.range 68) (List.range 64)) 40 0 r0 = some r ∧
      cf_Tjj 40 r.Tjj = Spec.rotl (Spec.T 40) (40 % 32) :=
  match (C16_round_constant Spec.IV (List.range 68) (List.range 64) 40 (by decide) (by decide)
      (by decide) (by decide) (by decide)).1 with
  | ⟨r0, r, e0, h0, e1, h1, _⟩ => ⟨r0, r, e0, h0, e1, h1⟩

/-! ## Totality and the checked rotations -/

theorem SM3_CYCLE_LEFT_checked_eq (n : Nat) {k : Nat} (h0 : 0 < k) (h32 : k < 32) :
    SM3_CYCLE_LEFT_checked n k = some (SM3_CYCLE_LEFT n k) := by
  unfold SM3_CYCLE_LEFT_checked
  rw [if_pos ⟨h0, h32⟩]

theorem SM3_P0_checked_eq (x : Nat) : SM3_P0_checked x = some (SM3_P0 x) := by
  unfold SM3_P0_checked SM3_P0
  rw [SM3_CYCLE_LEFT_checked_eq x (by decide) (by decide),
    SM3_CYCLE_LEFT_checked_eq x (by decide) (by decide)]
  rfl

theorem SM3_P1_checked_eq (x : Nat) : SM3_P1_checked x = some (SM3_P1 x) := by
  unfold SM3_P1_checked SM3_P1
  rw [SM3_CYCLE_LEFT_checked_eq x (by decide) (by decide),
    SM3_CYCLE_LEFT_checked_eq x (by decide) (by decide)]
  rfl

theorem cf_Tjj_checked_eq (j Tjj : Nat) : cf_Tjj_checked j Tjj = some (cf_Tjj j Tjj) := by
  unfold cf_Tjj_checked cf_Tjj
  by_cases h16 : j = 16
  · rw [if_pos h16, if_pos h16, SM3_CYCLE_LEFT_checked_eq _ (by decide) (by decide)]
  · rw [if_neg h16, if_neg h16]
    by_cases h0 : j > 0
    · rw [if_pos h0, if_pos h0, SM3_CYCLE_LEFT_checked_eq _ (by decide) (by decide)]
    · rw [if_neg h0, if_neg h0]

theorem msg_expand_B1_W_ext_checked_eq (j : Nat) (w : List Nat) :
    msg_expand_B1_W_ext_checked j w = msg_expand_B1_W_ext j w := by
  unfold msg_expand_B1_W_ext_checked msg_expand_B1_W_ext
  simp only [SM3_CYCLE_LEFT_checked_eq _ (show 0 < 15 by decide) (show 15 < 32 by decide),
    SM3_CYCLE_LEFT_checked_eq _ (show 0 < 7 by decide) (show 7 < 32 by decide),
    SM3_P1_checked_eq, Option.bind_eq_bind, Option.some_bind]

theorem cf_round_checked_eq (W W1 : List Nat) (j : Nat) (r : cf_locals) :
    cf_round_checked W W1 j r = cf_round W W1 j r := by
  unfold cf_round_checked cf_round
  simp only [SM3_CYCLE_LEFT_checked_eq _ (show 0 < 12 by decide) (show 12 < 32 by decide),
    SM3_CYCLE_LEFT_checked_eq _ (show 0 < 7 by decide) (show 7 < 32 by decide),
    SM3_CYCLE_LEFT_checked_eq _ (show 0 < 9 by decide) (show 9 < 32 by decide),
    SM3_CYCLE_LEFT_checked_eq _ (show 0 < 19 by decide) (show 19 < 32 by decide),
    cf_Tjj_checked_eq, SM3_P0_checked_eq, Option.bind_eq_bind, Option.some_bind]

theorem cf_round_total {W W1 : List Nat} {j : Nat} (hW : j < W.length) (hW1 : j < W1.length)
    (r : cf_locals) : ∃ r', cf_round W W1 j r = some r' := by
  unfold cf_round
  simp only [rd_of_lt hW, rd_of_lt hW1, Option.pure_def, Option.bind_eq_bind, Option.some_bind,
    bind_pure_comp, Option.map_eq_map, Option.map_some']
  split <;> exact ⟨_, rfl⟩

theorem cf_total {V W W1 : List Nat} (hV : V.length = 8) (hW : 64 ≤ W.length)
    (hW1 : 64 ≤ W1.length) : ∃ V', cf V W W1 = some V' ∧ V'.length = 8 := by
  obtain ⟨r, hr, _⟩ := forLoop_inv (cf_round W W1) (fun _ _ => True) 64 0
    { A := V.getD 0 0, B := V.getD 1 0, C := V.getD 2 0, D := V.getD 3 0,
      E := V.getD 4 0, F := V.getD 5 0, G := V.getD 6 0, H := V.getD 7 0, Tjj := T00_15 }
    trivial
    (by
      intro j r _ hj _
      obtain ⟨r', h⟩ := cf_round_total (show j < W.length by omega)
        (show j < W1.length by omega) r
      exact ⟨r', h, trivial⟩)
  unfold cf
  rw [cf_load_eq hV, Option.bind_eq_bind, Option.some_bind, hr, Option.some_bind]
  obtain ⟨a, b, c, d, e, f, g, k, rfl⟩ := length_eight hV
  simp [cf_store, cf_xor, rd, wr]

/-- C12: totality and in-bounds indexing. In the embedding an access outside its
array makes the result `none`, so a result `some _` says that every index was in
range. Under `cur_len < 64`, `sm3_process` (for every input) and `sm3_done` (into
an array of 32 bytes) return; `msg_expand_B1_W` returns on a block of 64 bytes and
an array of 68 words, whose prior contents do not matter (what it reads of `w` it
has written); `msg_expand_W_W1` returns on 68 and 64 words; `cf` returns on
schedules of 64 words each; and every rotation of the code passes the check
`0 < k < 32` of the rotation amount. -/
theorem C12_in_bounds (s : sm3_hash_t) (m hash0 : List Nat) (hwf : s.WF)
    (hs : s.cur_len < 64) (_hlen : m.length < 4294967296) (hm : isBytes m)
    (hh : hash0.length = 32) :
    (∃ s', sm3_process s m = some s' ∧ s'.WF ∧ s'.cur_len < 64) ∧
    (∃ s' hash, sm3_done_into s hash0 = some (s', hash) ∧ hash.length = 32) ∧
    (∀ b w w' : List Nat, b.length = 64 → isBytes b → w.length = 68 → w'.length = 68 →
      ∃ W, msg_expand_B1_W b w = some W ∧ msg_expand_B1_W b w' = some W ∧ W.length = 68) ∧
    (∀ w w1 w1' : List Nat, w.length = 68 → w1.length = 64 → w1'.length = 64 →
      ∃ W1, msg_expand_W_W1 w w1 = some W1 ∧ msg_expand_W_W1 w w1' = some W1 ∧
        W1.length = 64) ∧
    (∀ V W W1 : List Nat, V.length = 8 → W.length = 64 → W1.length = 64 →
      ∃ V', cf V W W1 = some V' ∧ V'.length = 8) ∧
    (∀ t : sm3_hash_t, t.WF → ∃ t', sm3_compress t = some t' ∧ t'.WF) ∧
    (∀ n k : Nat, (SM3_CYCLE_LEFT_checked n k).isSome = true ↔ 0 < k ∧ k < 32) ∧
    (∀ x : Nat, SM3_P0_checked x = some (SM3_P0 x) ∧ SM3_P1_checked x = some (SM3_P1 x)) ∧
    (∀ (j : Nat) (w : List Nat), msg_expand_B1_W_ext_checked j w = msg_expand_B1_W_ext j w) ∧
    (∀ j Tjj : Nat, cf_Tjj_checked j Tjj = some (cf_Tjj j Tjj)) ∧
    (∀ (W W1 : List Nat) (j : Nat) (r : cf_locals),
      cf_round_checked W W1 j r = cf_round W W1 j r) := by
  have hlen : (s.buf.take s.cur_len).length = s.cur_len := by
    rw [List.length_take, hwf.2.2.2.1]; omega
  refine ⟨?_, ?_, ?_, ?_, ?_, ?_, ?_, fun x => ⟨SM3_P0_checked_eq x, SM3_P1_checked_eq x⟩,
    msg_expand_B1_W_ext_checked_eq, cf_Tjj_checked_eq, cf_round_checked_eq⟩
  · obtain ⟨s', e, h⟩ := sm3_process_holds m (holds_of_WF hwf (by omega)) (by omega) hm
    refine ⟨s', e, h.wf, ?_⟩
    have h64 := h.length_le
    rw [h.len_eq, List.length_drop, List.length_append]
    rw [List.length_drop, List.length_append] at h64
    omega
  · obtain ⟨s', e, hwf', _⟩ := sm3_done_into_of_WF hwf hs hash0 hh
    exact ⟨s', _, e, serialize_length hwf'.1⟩
  · intro b w w' hb hbytes hw hw'
    exact ⟨_, msg_expand_B1_W_eq hb hbytes hw, msg_expand_B1_W_eq hb hbytes hw', W_length b⟩
  · intro w w1 w1' hw hw1 hw1'
    exact ⟨_, msg_expand_W_W1_eq hw hw1, msg_expand_W_W1_eq hw hw1', W'_length w⟩
  · intro V W W1 hV hW hW1
    exact cf_total hV (by omega) (by omega)
  · intro t ht
    obtain ⟨h1, h2, h3, h4, h5, h6⟩ := ht
    exact ⟨_, sm3_compress_eq h1 h2 h4 h5, CF_length _ _, CF_lt h2 h1 _, h3, h4, h5, h6⟩
  · intro n k
    unfold SM3_CYCLE_LEFT_checked
    by_cases h : 0 < k ∧ k < 32
    · simp [h]
    · simp only [if_neg h, Option.isSome_none]
      exact ⟨fun hf => absurd hf (by decide), fun hk => absurd hk h⟩

/-- C12 at a concrete input: the fresh state, the demo bytes, a stale output
array. -/
theorem C12_in_bounds_witness :
    (sm3_init stale).WF ∧ (sm3_init stale).cur_len < 64 ∧
    test_data.length < 4294967296 ∧ isBytes test_data ∧
    (List.replicate 32 0xaa).length = 32 ∧
    (∃ s', sm3_process (sm3_init stale) test_data = some s' ∧ s'.WF ∧ s'.cur_len < 64) ∧
    (∃ s' hash, sm3_done_into (sm3_init stale) (List.replicate 32 0xaa) = some (s', hash) ∧
      hash.length = 32) :=
  ⟨by decide, by decide, by decide, by decide, by decide,
   (C12_in_bounds (sm3_init stale) test_data (List.replicate 32 0xaa) (by decide) (by decide)
      (by decide) (by decide) (by decide)).1,
   (C12_in_bounds (sm3_init stale) test_data (List.replicate 32 0xaa) (by decide) (by decide)
      (by decide) (by decide) (by decide)).2.1⟩

/-! ## The log of compressed blocks -/

theorem holds_full_buf {s : sm3_hash_t} {iv : List Nat} {ml : Nat} {P : List Nat}
    (h : Holds s iv ml P) (hP : P.length = 64) : s.buf = P := by
  have := h.pend_eq
  rw [hP, ← h.wf.2.2.2.1, List.take_length] at this
  exact this

theorem sm3_compress_log_holds {s : sm3_hash_t} {iv : List Nat} {ml : Nat} {P : List Nat}
    (h : Holds s iv ml P) (hP : P.length = 64) (log : List (List Nat)) :
    sm3_compress_log s log = some ({ s with iv := Spec.CF iv P }, log ++ [P]) := by
  unfold sm3_compress_log
  rw [(holds_compress h hP).1, holds_full_buf h hP]
  rfl

theorem sm3_process_byte_log_holds {s : sm3_hash_t} {iv : List Nat} {ml : Nat} {P : List Nat}
    (h : Holds s iv ml P) (hP : P.length < 64) {x : Nat} (hx : x < 256)
    (log : List (List Nat)) :
    ∃ s', sm3_process_byte s x = some s' ∧
      ((P.length = 63 ∧ Holds s' (Spec.CF iv (P ++ [x])) (u32 (ml + 512)) [] ∧
          sm3_process_byte_log s log x = some (s', log ++ [P ++ [x]])) ∨
       (P.length < 63 ∧ Holds s' iv ml (P ++ [x]) ∧
          sm3_process_byte_log s log x = some (s', log))) := by
  have hl := h.wf.2.2.2.1
  have hput := holds_put h hP hx
  have hstep : sm3_process_byte_log s log x =
      (if P.length + 1 = 64 then
        (sm3_compress_log { s with buf := s.buf.set P.length x, cur_len := P.length + 1 }
            log).bind
          (fun r => some ({ r.1 with message_length := u32 (r.1.message_length + 512),
                                     cur_len := 0 }, r.2))
       else some ({ s with buf := s.buf.set P.length x, cur_len := P.length + 1 }, log)) := by
    unfold sm3_process_byte_log
    rw [h.len_eq, wr_of_lt (by omega), Option.bind_eq_bind, Option.some_bind,
      u32_of_lt (by omega)]
    rfl
  obtain ⟨s', e, hcase⟩ := sm3_process_byte_holds h hP hx
  have hstep0 : sm3_process_byte s x =
      (if P.length + 1 = 64 then
        (sm3_compress { s with buf := s.buf.set P.length x, cur_len := P.length + 1 }).bind
          (fun s2 => some { s2 with message_length := u32 (s2.message_length + 512),
                                    cur_len := 0 })
       else some { s with buf := s.buf.set P.length x, cur_len := P.length + 1 }) := by
    unfold sm3_process_byte
    rw [h.len_eq, wr_of_lt (by omega), Option.bind_eq_bind, Option.some_bind,
      u32_of_lt (by omega)]
    rfl
  refine ⟨s', e, ?_⟩
  rcases hcase with ⟨h63, hh⟩ | ⟨h63, hh⟩
  · refine Or.inl ⟨h63, hh, ?_⟩
    have hc := (holds_compress hput (by simp [h63])).1
    rw [hstep0, if_pos (by omega), hc, Option.some_bind] at e
    rw [hstep, if_pos (by omega), sm3_compress_log_holds hput (by simp [h63]),
      Option.some_bind]
    simp only [Option.some.injEq] at e
    rw [← e]
  · refine Or.inr ⟨h63, hh, ?_⟩
    rw [hstep0, if_neg (by omega)] at e
    rw [hstep, if_neg (by omega)]
    simp only [Option.some.injEq] at e
    rw [← e]

/-- The log of `sm3_process`: the complete blocks of the pending bytes followed
by the input, in order. -/
theorem sm3_process_log_holds (m : List Nat) :
    ∀ {s : sm3_hash_t} {iv : List Nat} {ml : Nat} {P : List Nat} (log : List (List Nat)),
    Holds s iv ml P → P.length < 64 → isBytes m →
    ∃ s', sm3_process s m = some s' ∧
      sm3_process_log s log m =
        some (s', log ++ Spec.blocks ((P.length + m.length) / 64) (P ++ m)) := by
  induction m with
  | nil =>
    intro s iv ml P log h hP _
    have hq : (P.length + ([] : List Nat).length) / 64 = 0 := by
      simp only [List.length_nil, Nat.add_zero]; omega
    refine ⟨s, rfl, ?_⟩
    rw [hq]
    simp [sm3_process_log, Spec.blocks]
  | cons x m ih =>
    intro s iv ml P log h hP hm
    have hx : x < 256 := hm x (List.mem_cons_self _ _)
    have hm' : isBytes m := fun y hy => hm y (List.mem_cons_of_mem _ hy)
    obtain ⟨s1, hs1, hcase⟩ := sm3_process_byte_log_holds h hP hx log
    rcases hcase with ⟨h63, hh, hlog⟩ | ⟨h63, hh, hlog⟩
    · obtain ⟨s2, hs2, hl2⟩ := ih (log ++ [P ++ [x]]) hh (by simp) hm'
      refine ⟨s2, by simp [sm3_process, hs1, hs2], ?_⟩
      have hq : (P.length + (x :: m).length) / 64 = m.length / 64 + 1 := by
        simp only [List.length_cons]; omega
      have happ : P ++ x :: m = (P ++ [x]) ++ m := by simp
      have hlen : (P ++ [x]).length = 64 := by simp [h63]
      rw [hq, happ, blocks_cons hlen]
      simp only [sm3_process_log, hlog, Option.some_bind]
      rw [hl2]
      simp
    · obtain ⟨s2, hs2, hl2⟩ := ih log hh (by simp; omega) hm'
      refine ⟨s2, by simp [sm3_process, hs1, hs2], ?_⟩
      have hq : ((P ++ [x]).length + m.length) = (P.length + (x :: m).length) := by
        simp only [List.length_append, List.length_cons, List.length_nil]; omega
      have happ : (P ++ [x]) ++ m = P ++ x :: m := by simp
      rw [hq, happ] at hl2
      simp only [sm3_process_log, hlog, Option.some_bind]
      exact hl2

theorem sm3_process_log_append (a b : List Nat) : ∀ (s : sm3_hash_t) (log : List (List Nat)),
    sm3_process_log s log (a ++ b) =
      (sm3_process_log s log a).bind (fun r => sm3_process_log r.1 r.2 b) := by
  induction a with
  | nil => intro s log; rfl
  | cons x a ih =>
    intro s log
    simp only [List.cons_append, sm3_process_log]
    cases sm3_process_byte_log s log x with
    | none => rfl
    | some r => simp only [Option.some_bind]; exact ih r.1 r.2

theorem sm3_process_calls_log_eq (chunks : List (List Nat)) :
    ∀ (s : sm3_hash_t) (log : List (List Nat)),
    sm3_process_calls_log s log chunks = sm3_process_log s log chunks.flatten := by
  induction chunks with
  | nil => intro s log; rfl
  | cons c cs ih =>
    intro s log
    simp only [sm3_process_calls_log, List.flatten_cons, sm3_process_log_append]
    cases sm3_process_log s log c with
    | none => rfl
    | some r => simp only [Option.some_bind]; exact ih r.1 r.2

theorem sm3_done_pad_log_holds {s : sm3_hash_t} {iv : List Nat} {ml : Nat} {P : List Nat}
    (h : Holds s iv ml P) (hP : P.length < 64) (log : List (List Nat)) :
    ∃ s', sm3_done_pad s = some s' ∧
      ((P.length ≤ 55 ∧ Holds s' iv (u32 (ml + u32 (P.length * 8))) (P ++ [0x80]) ∧
          sm3_done_pad_log s log = some (s', log)) ∨
       (56 ≤ P.length ∧
        Holds s' (Spec.CF iv (P ++ [0x80] ++ List.replicate (63 - P.length) 0))
          (u32 (ml + u32 (P.length * 8))) [] ∧
        sm3_done_pad_log s log =
          some (s', log ++ [P ++ [0x80] ++ List.replicate (63 - P.length) 0]))) := by
  have h0 := holds_set_ml h (u32 (ml + u32 (P.length * 8))) (u32_lt _)
  obtain ⟨s1, e1, h1⟩ := put_holds h0 hP (show 0x80 < 256 by decide)
  have hc1 : s1.cur_len = P.length + 1 := by rw [h1.len_eq]; simp
  have hunf : sm3_done_pad s = (sm3_done_put
      { s with message_length := u32 (ml + u32 (P.length * 8)) } 0x80).bind
      (fun s1 => if s1.cur_len > 56 then
        (sm3_done_fill 64 64 s1).bind (fun s2 => (sm3_compress s2).bind
          (fun s3 => some { s3 with cur_len := 0 }))
        else some s1) := by
    unfold sm3_done_pad
    rw [h.ml_eq, h.len_eq]
    rfl
  have hunfl : sm3_done_pad_log s log = (sm3_done_put
      { s with message_length := u32 (ml + u32 (P.length * 8)) } 0x80).bind
      (fun s1 => if s1.cur_len > 56 then
        (sm3_done_fill 64 64 s1).bind (fun s2 => (sm3_compress_log s2 log).bind
          (fun r => some ({ r.1 with cur_len := 0 }, r.2)))
        else some (s1, log)) := by
    unfold sm3_done_pad_log
    rw [h.ml_eq, h.len_eq]
    rfl
  rw [hunf, hunfl, e1, Option.some_bind, Option.some_bind]
  by_cases hc : P.length ≤ 55
  · refine ⟨s1, ?_, Or.inl ⟨hc, h1, ?_⟩⟩
    · rw [if_neg (by omega)]
    · rw [if_neg (by omega)]
  · obtain ⟨s2, e2, h2⟩ := sm3_done_fill_holds (Nat.le_refl 64) 64 h1 (by simp; omega)
      (by omega)
    have hlen : (P ++ [0x80] ++ List.replicate (64 - (P ++ [0x80]).length) 0).length = 64 := by
      simp; omega
    have e63 : 64 - (P ++ [0x80]).length = 63 - P.length := by simp
    rw [e63] at h2 hlen
    obtain ⟨e3, h3⟩ := holds_compress h2 hlen
    have h4 := holds_reset h3 _ (u32_lt (ml + u32 (P.length * 8)))
    have hml : s2.message_length = u32 (ml + u32 (P.length * 8)) := h2.ml_eq
    refine ⟨_, ?_, Or.inr ⟨by omega, h4, ?_⟩⟩
    · rw [if_pos (by omega), e2, Option.some_bind, e3, Option.some_bind]
      show some _ = some _
      rw [← hml]
    · rw [if_pos (by omega), e2, Option.some_bind, sm3_compress_log_holds h2 hlen,
        Option.some_bind]
      show some _ = some _
      rw [← hml]

/-- The log of `sm3_done`: the blocks `doneBlocks`, in order. -/
theorem sm3_done_log_holds {s : sm3_hash_t} {iv : List Nat} {ml : Nat} {P : List Nat}
    (h : Holds s iv ml P) (hP : P.length < 64) (hash0 : List Nat) (hh : hash0.length = 32)
    (log : List (List Nat)) :
    ∃ s' hash, sm3_done_into s hash0 = some (s', hash) ∧
      sm3_done_log s log hash0 =
        some (s', hash, log ++ doneBlocks P (u32 (ml + u32 (P.length * 8)))) := by
  obtain ⟨s1, e1, hcase⟩ := sm3_done_pad_log_holds h hP log
  have key : ∀ {iv1 : List Nat} {P1 : List Nat} (log1 : List (List Nat)),
      Holds s1 iv1 (u32 (ml + u32 (P.length * 8))) P1 → P1.length ≤ 56 →
      sm3_done_pad_log s log = some (s1, log1) →
      ∃ s' hash, sm3_done_into s hash0 = some (s', hash) ∧
        sm3_done_log s log hash0 = some (s', hash, log1 ++
          [P1 ++ List.replicate (56 - P1.length) 0 ++
            ([0, 0, 0, 0] ++ Spec.be32 (u32 (ml + u32 (P.length * 8))))]) := by
    intro iv1 P1 log1 h1 hP1 el
    obtain ⟨s2, e2, h2⟩ := sm3_done_fill_holds (show 56 ≤ 64 by decide) 64 h1 hP1 (by omega)
    obtain ⟨s3, e3, h3⟩ := sm3_done_length_holds h2 (by simp; omega)
    have hl3 : (P1 ++ List.replicate (56 - P1.length) 0 ++
        ([0, 0, 0, 0] ++ Spec.be32 (u32 (ml + u32 (P.length * 8))))).length = 64 := by
      simp [Spec.be32]; omega
    obtain ⟨e4, h4⟩ := holds_compress h3 hl3
    refine ⟨{ s3 with iv := Spec.CF iv1 (P1 ++ List.replicate (56 - P1.length) 0 ++
        ([0, 0, 0, 0] ++ Spec.be32 (u32 (ml + u32 (P.length * 8))))) },
      Spec.serialize (Spec.CF iv1 (P1 ++ List.replicate (56 - P1.length) 0 ++
        ([0, 0, 0, 0] ++ Spec.be32 (u32 (ml + u32 (P.length * 8)))))), ?_, ?_⟩
    · unfold sm3_done_into
      rw [e1, Option.bind_eq_bind, Option.some_bind, e2, Option.some_bind, e3,
        Option.some_bind, e4, Option.some_bind, sm3_done_out_loop (CF_length _ _) hh]
      rfl
    · unfold sm3_done_log
      simp only [el, e2, e3, sm3_compress_log_holds h3 hl3, Option.bind_eq_bind,
        Option.some_bind]
      rw [sm3_done_out_loop (CF_length _ _) hh]
      rfl
  rcases hcase with ⟨hc, h1, el⟩ | ⟨hc, h1, el⟩
  · obtain ⟨s', hash, e, elog⟩ := key log h1 (by simp; omega) el
    have e55 : 56 - (P ++ [0x80]).length = 55 - P.length := by simp
    rw [e55] at elog
    refine ⟨s', hash, e, ?_⟩
    rw [elog]
    unfold doneBlocks
    rw [if_pos hc]
  · obtain ⟨s', hash, e, elog⟩ := key _ h1 (by simp) el
    have hn : ¬ P.length ≤ 55 := by omega
    refine ⟨s', hash, e, ?_⟩
    rw [elog]
    unfold doneBlocks
    rw [if_neg hn]
    simp

theorem blocks_length (q : Nat) : ∀ (l : List Nat), (Spec.blocks q l).length = q := by
  induction q with
  | zero => intro l; rfl
  | succ q ih => intro l; simp [Spec.blocks, ih]

theorem sm3_process_log_same {s s' : sm3_hash_t} (hwf : s.WF) (hs : s.cur_len < 64)
    {m : List Nat} (hm : isBytes m) {log : List (List Nat)}
    (h : sm3_process_log s log m = some (s', log)) :
    s'.iv = s.iv ∧ s'.message_length = s.message_length := by
  have hlen : (s.buf.take s.cur_len).length = s.cur_len := by
    rw [List.length_take, hwf.2.2.2.1]; omega
  have hh := holds_of_WF hwf (show s.cur_len ≤ 64 by omega)
  obtain ⟨t, e, el⟩ := sm3_process_log_holds m log hh (by omega) hm
  obtain ⟨t', e', ht⟩ := sm3_process_holds m hh (by omega) hm
  rw [el] at h
  simp only [Option.some.injEq, Prod.mk.injEq, List.append_right_eq_self] at h
  have hq : (s.cur_len + m.length) / 64 = 0 := by
    have := congrArg List.length h.2
    rw [blocks_length, hlen] at this
    exact this
  rw [e] at e'
  simp only [Option.some.injEq] at e'
  rw [← h.1, e']
  have hiv := ht.iv_eq
  have hml := ht.ml_eq
  rw [hlen, hq] at hiv hml
  refine ⟨hiv, ?_⟩
  rw [hml]
  exact u32_of_lt hwf.2.2.1

/-- C17: padding branches of `sm3_done`. For every state with `cur_len = p < 64`:
if `p ≤ 55` the call runs one compression, on `buf[0..p) ++ 0x80 ++ (55 - p)`
zero bytes `++` the 8-byte length field; if `p ≥ 56` it runs two, on
`buf[0..p) ++ 0x80 ++ (63 - p)` zero bytes and then on 56 zero bytes `++` the
length field. Hence a message of `n` bytes absorbed from the fresh state causes
`floor(n/64) + 1` compressions in all when `n mod 64 ≤ 55` and `floor(n/64) + 2`
when `n mod 64 ≥ 56`; lengths 0, 55, 64, 65 are of the first kind, 56 and 63 of
the second. -/
theorem C17_padding_branches (s : sm3_hash_t) (hash0 : List Nat) (hwf : s.WF)
    (hs : s.cur_len < 64) (hh : hash0.length = 32) :
    (∃ s' hash log, sm3_done_log s [] hash0 = some (s', hash, log) ∧
      sm3_done_into s hash0 = some (s', hash) ∧
      s'.iv = log.foldl Spec.CF s.iv ∧
      (s.cur_len ≤ 55 →
        log = [s.buf.take s.cur_len ++ [0x80] ++ List.replicate (55 - s.cur_len) 0 ++
          ([0, 0, 0, 0] ++
            Spec.be32 ((s.message_length + 8 * s.cur_len) % 4294967296))]) ∧
      (56 ≤ s.cur_len →
        log = [s.buf.take s.cur_len ++ [0x80] ++ List.replicate (63 - s.cur_len) 0,
          List.replicate 56 0 ++ ([0, 0, 0, 0] ++
            Spec.be32 ((s.message_length + 8 * s.cur_len) % 4294967296))])) ∧
    (∀ (prior : sm3_hash_t) (chunks : List (List Nat)),
      (∀ c ∈ chunks, c.length < 4294967296 ∧ isBytes c) →
      ∃ s1 log1 s2 hash log2,
        sm3_process_calls_log (sm3_init prior) [] chunks = some (s1, log1) ∧
        sm3_process_calls (sm3_init prior) chunks = some s1 ∧
        sm3_done_log s1 log1 (List.replicate 32 0) = some (s2, hash, log2) ∧
        sm3_done s1 = some (s2, hash) ∧
        log1.length = chunks.flatten.length / 64 ∧
        (chunks.flatten.length % 64 ≤ 55 → log2.length = chunks.flatten.length / 64 + 1) ∧
        (56 ≤ chunks.flatten.length % 64 → log2.length = chunks.flatten.length / 64 + 2)) ∧
    (∀ n ∈ [0, 55, 64, 65], n % 64 ≤ 55) ∧ (∀ n ∈ [56, 63], 56 ≤ n % 64) := by
  refine ⟨?_, ?_, by decide, by decide⟩
  · have hlen : (s.buf.take s.cur_len).length = s.cur_len := by
      rw [List.length_take, hwf.2.2.2.1]; omega
    obtain ⟨s', hash, e, elog⟩ :=
      sm3_done_log_holds (holds_of_WF hwf (by omega)) (by omega) hash0 hh []
    obtain ⟨t, et, _, hiv, _⟩ := sm3_done_into_of_WF hwf hs hash0 hh
    have hst : s' = t := by
      rw [e] at et
      simp only [Option.some.injEq, Prod.mk.injEq] at et
      exact et.1
    have hL : u32 (s.message_length + u32 (s.cur_len * 8)) =
        (s.message_length + 8 * s.cur_len) % 4294967296 := by
      unfold u32; omega
    rw [hlen, List.nil_append] at elog
    refine ⟨s', hash, _, elog, e, by rw [hst, hiv], ?_, ?_⟩
    · intro hc
      unfold doneBlocks
      rw [hlen, if_pos hc, hL]
    · intro hc
      unfold doneBlocks
      rw [hlen, if_neg (by omega), hL]
  · intro prior chunks hc
    have hb := isBytes_flatten (fun c h => (hc c h).2)
    obtain ⟨s1, e1, el1⟩ := sm3_process_log_holds chunks.flatten [] (holds_init prior)
      (by simp) hb
    obtain ⟨s1', e1', h1⟩ := sm3_process_holds chunks.flatten (holds_init prior) (by simp) hb
    have hs1 : s1' = s1 := by
      rw [e1] at e1'
      simp only [Option.some.injEq] at e1'
      exact e1'.symm
    rw [hs1] at h1
    simp only [List.length_nil, Nat.zero_add, List.nil_append] at h1 el1
    have hP : (chunks.flatten.drop (64 * (chunks.flatten.length / 64))).length =
        chunks.flatten.length % 64 := by
      rw [List.length_drop]; omega
    obtain ⟨s2, hash, e2, el2⟩ := sm3_done_log_holds h1 (by omega) (List.replicate 32 0)
      (by simp) (Spec.blocks (chunks.flatten.length / 64) chunks.flatten)
    have hbl := blocks_length
    refine ⟨s1, _, s2, hash, _, by rw [sm3_process_calls_log_eq]; exact el1,
      by rw [sm3_process_calls_eq]; exact e1, el2, e2, hbl _ _, ?_, ?_⟩
    · intro hc55
      rw [List.length_append, hbl]
      unfold doneBlocks
      rw [hP, if_pos hc55]
      rfl
    · intro hc56
      rw [List.length_append, hbl]
      unfold doneBlocks
      rw [hP, if_neg (by omega)]
      rfl

/-- C17 at a concrete input: the fresh state, and the demo bytes from it. -/
theorem C17_padding_branches_witness :
    (sm3_init stale).WF ∧ (sm3_init stale).cur_len < 64 ∧
    (∃ s' hash log, sm3_done_log (sm3_init stale) [] (List.replicate 32 0xaa) =
        some (s', hash, log) ∧
      log = [[0x80] ++ List.replicate 55 0 ++ [0, 0, 0, 0, 0, 0, 0, 0]]) ∧
    (∃ s1 log1 s2 hash log2,
      sm3_process_calls_log (sm3_init stale) [] [test_data] = some (s1, log1) ∧
      sm3_done_log s1 log1 (List.replicate 32 0) = some (s2, hash, log2) ∧
      log2.length = 1) :=
  ⟨by decide, by decide,
   match (C17_padding_branches (sm3_init stale) (List.replicate 32 0xaa) (by decide)
      (by decide) (by decide)).1 with
   | ⟨s', hash, log, e, _, _, h55, _⟩ => ⟨s', hash, log, e, h55 (by decide)⟩,
   match (C17_padding_branches (sm3_init stale) (List.replicate 32 0xaa) (by decide)
      (by decide) (by decide)).2.1 stale [test_data] (by decide) with
   | ⟨s1, log1, s2, hash, log2, e1, _, e2, _, _, h55, _⟩ =>
     ⟨s1, log1, s2, hash, log2, e1, e2, h55 (by decide)⟩⟩

/-! ## Frame of the stores into the buffer -/

theorem sm3_process_byte_no_compress {s s' : sm3_hash_t} {x : Nat}
    (h : sm3_process_byte s x = some s') (hc : u32 (s.cur_len + 1) ≠ 64) :
    s' = { s with buf := s.buf.set s.cur_len x, cur_len := u32 (s.cur_len + 1) } := by
  unfold sm3_process_byte wr at h
  by_cases hi : s.cur_len < s.buf.length
  · simp only [hi, if_true, Option.bind_eq_bind, Option.some_bind, if_neg hc, Option.pure_def,
      Option.some.injEq] at h
    exact h.symm
  · simp [hi] at h

theorem sm3_done_put_frame {s s' : sm3_hash_t} {v : Nat} (h : sm3_done_put s v = some s') :
    s'.iv = s.iv ∧ s'.message_length = s.message_length := by
  unfold sm3_done_put wr at h
  by_cases hi : s.cur_len < s.buf.length
  · simp only [hi, if_true, Option.bind_eq_bind, Option.some_bind, Option.pure_def,
      Option.some.injEq] at h
    rw [← h]
    exact ⟨rfl, rfl⟩
  · simp [hi] at h

theorem sm3_done_fill_frame (limit : Nat) : ∀ (fuel : Nat) {s s' : sm3_hash_t},
    sm3_done_fill limit fuel s = some s' →
    s'.iv = s.iv ∧ s'.message_length = s.message_length := by
  intro fuel
  induction fuel with
  | zero =>
    intro s s' h
    unfold sm3_done_fill at h
    by_cases hc : s.cur_len < limit
    · simp [hc] at h
    · simp only [hc, if_false, Option.some.injEq] at h
      rw [← h]
      exact ⟨rfl, rfl⟩
  | succ fuel ih =>
    intro s s' h
    unfold sm3_done_fill at h
    by_cases hc : s.cur_len < limit
    · simp only [hc, if_true, Option.bind_eq_bind] at h
      unfold wr at h
      by_cases hi : s.cur_len < s.buf.length
      · simp only [hi, if_true, Option.some_bind] at h
        have h2 := ih h
        exact h2
      · simp [hi] at h
    · simp only [hc, if_false, Option.some.injEq] at h
      rw [← h]
      exact ⟨rfl, rfl⟩

theorem sm3_process_frame (a : List Nat) : ∀ (s : sm3_hash_t), s.buf.length = 64 →
    s.cur_len + a.length < 64 →
    sm3_process s a = some { s with
      buf := s.buf.take s.cur_len ++ a ++ s.buf.drop (s.cur_len + a.length),
      cur_len := s.cur_len + a.length } := by
  induction a with
  | nil =>
    intro s _ _
    simp only [sm3_process, List.append_nil, List.length_nil, Nat.add_zero,
      List.take_append_drop]
  | cons x a ih =>
    intro s hb hl
    simp only [List.length_cons] at hl
    have hstep : sm3_process_byte s x =
        some { s with buf := s.buf.set s.cur_len x, cur_len := s.cur_len + 1 } := by
      unfold sm3_process_byte
      rw [wr_of_lt (by omega), Option.bind_eq_bind, Option.some_bind, u32_of_lt (by omega)]
      simp only [Option.pure_def]
      rw [if_neg (by omega)]
    simp only [sm3_process, hstep, Option.some_bind]
    rw [ih _ (by simp [hb]) (by simp only []; omega)]
    simp only [List.length_cons]
    congr 2
    · rw [take_set_succ _ _ _ (by omega), List.drop_set_of_lt _ _ (by omega)]
      simp [Nat.add_assoc, Nat.add_comm 1]
    · omega

/-- C18: frame of an absorb that completes no block. For every state with
`cur_len = p` and every byte sequence `a` of length `L` with `p + L < 64`,
`sm3_process` leaves the registers and `message_length` unchanged, leaves
`buf[0..p)` and `buf[p+L..64)` unchanged, sets `buf[p..p+L)` to `a` and `cur_len`
to `p + L`; the empty sequence leaves the state unchanged. The registers
change only when a compression runs: a byte that does not fill the buffer, a
call that logs no compressed block, and the marker and zero stores of `sm3_done`
leave them as they are. -/
theorem C18_absorb_frame (s : sm3_hash_t) (a : List Nat) (hbuf : s.buf.length = 64)
    (hlt : s.cur_len + a.length < 64) :
    (∃ s', sm3_process s a = some s' ∧ s'.iv = s.iv ∧
      s'.message_length = s.message_length ∧ s'.cur_len = s.cur_len + a.length ∧
      s'.buf.length = 64 ∧
      s'.buf.take s.cur_len = s.buf.take s.cur_len ∧
      (s'.buf.drop s.cur_len).take a.length = a ∧
      s'.buf.drop (s.cur_len + a.length) = s.buf.drop (s.cur_len + a.length)) ∧
    (∀ t : sm3_hash_t, sm3_process t [] = some t) ∧
    (∀ (t t' : sm3_hash_t) (x : Nat), sm3_process_byte t x = some t' →
      u32 (t.cur_len + 1) ≠ 64 → t'.iv = t.iv ∧ t'.message_length = t.message_length) ∧
    (∀ (t t' : sm3_hash_t) (m : List Nat) (log : List (List Nat)), t.WF → t.cur_len < 64 →
      isBytes m → sm3_process_log t log m = some (t', log) →
      t'.iv = t.iv ∧ t'.message_length = t.message_length) ∧
    (∀ (t t' : sm3_hash_t) (v : Nat), sm3_done_put t v = some t' → t'.iv = t.iv) ∧
    (∀ (limit fuel : Nat) (t t' : sm3_hash_t), sm3_done_fill limit fuel t = some t' →
      t'.iv = t.iv) := by
  have hl1 : (s.buf.take s.cur_len).length = s.cur_len := by
    rw [List.length_take, hbuf]; omega
  refine ⟨⟨_, sm3_process_frame a s hbuf hlt, rfl, rfl, rfl, ?_, ?_, ?_, ?_⟩, fun _ => rfl, ?_,
    fun t t' m log ht hc hm h => sm3_process_log_same ht hc hm h,
    fun t t' v h => (sm3_done_put_frame h).1,
    fun limit fuel t t' h => (sm3_done_fill_frame limit fuel h).1⟩
  · simp only [List.length_append, List.length_take, List.length_drop, hbuf]; omega
  · show (s.buf.take s.cur_len ++ a ++ s.buf.drop (s.cur_len + a.length)).take s.cur_len = _
    rw [List.append_assoc]
    exact List.take_left' hl1
  · show ((s.buf.take s.cur_len ++ a ++ s.buf.drop (s.cur_len + a.length)).drop
      s.cur_len).take a.length = a
    rw [List.append_assoc, List.drop_left' hl1]
    exact List.take_left' rfl
  · show (s.buf.take s.cur_len ++ a ++ s.buf.drop (s.cur_len + a.length)).drop
      (s.cur_len + a.length) = _
    exact List.drop_left' (by rw [List.length_append, hl1])
  · intro t t' x h hc
    rw [sm3_process_byte_no_compress h hc]
    exact ⟨rfl, rfl⟩

/-- C18 at a concrete input: three pending bytes, then the bytes `04 05 06`. -/
theorem C18_absorb_frame_witness :
    ∃ s', sm3_process { iv := Spec.IV, message_length := 512,
                        buf := [1, 2, 3] ++ List.replicate 61 0xaa, cur_len := 3 } [4, 5, 6] =
        some s' ∧
      s'.iv = Spec.IV ∧ s'.message_length = 512 ∧ s'.cur_len = 6 ∧
      s'.buf.take 3 = [1, 2, 3] ∧ (s'.buf.drop 3).take 3 = [4, 5, 6] ∧
      s'.buf.drop 6 = List.replicate 58 0xaa :=
  match (C18_absorb_frame
      { iv := Spec.IV, message_length := 512, buf := [1, 2, 3] ++ List.replicate 61 0xaa,
        cur_len := 3 } [4, 5, 6] (by decide) (by decide)).1 with
  | ⟨s', e, h1, h2, h3, _, h5, h6, h7⟩ => ⟨s', e, h1, h2, h3, h5, h6, h7⟩

end SM3
